import Mathlib

/-!
# Verification of the adversarial-search agent (`my_custom_player.py`)

Shallow embedding of the MCTS and alpha-beta search engines of
`Projects/3_Adversarial Search/my_custom_player.py`, together with proofs
about the claims of the specification.

Modelling conventions:
* The game-state module is external to the repository; it is embedded as a
  record of its interface operations (`GameOps`), exactly the operations the
  player code calls (`actions`, `result`, `terminal_test`, `utility`,
  `player`, `_has_liberties`, `locs`, `liberties`).
* Python floats used for search values (`float("-inf")`, `float("inf")`,
  utilities, integer scores) are embedded as integers extended with two
  endpoints, `Val := WithBot (WithTop ℤ)`.  The only operations the code
  performs on them are comparisons, `min` and `max`, which floats realise
  exactly.
* The UCB statistics (`reward`, and the `sqrt`/`log` scores) are embedded
  as real numbers.
* `random.choice(lst)` is embedded as selection of an index supplied by a
  stream of natural numbers (a seedable random source, as the spec's design
  notes require); on an empty list it has no value (`none`), matching the
  `IndexError` the Python call raises.
* Python's `while` loops that walk a dynamic structure are embedded with an
  explicit fuel argument; exhausting the fuel yields `none` (the real loops
  always terminate on finite games, and every theorem that needs a completed
  loop takes its completion as a hypothesis or proves it).
-/

/-- Search values: integers together with `float("-inf")` (`⊥`) and
`float("inf")` (`⊤`). -/
abbrev Val := WithBot (WithTop ℤ)

/-- An ordinary (finite) value. -/
def Val.fin (n : ℤ) : Val := ((n : WithTop ℤ) : Val)

/-- Interface of the external game-state module, as consumed by the player
code: `state.actions()`, `state.result(a)`, `state.terminal_test()`,
`state.utility(player_id)`, `state.player()`, `state._has_liberties(pid)`,
`state.locs[i]` and `state.liberties(loc)`.  `σ` is the state type, `α` the
action type, `β` the board-location type. -/
structure GameOps (σ α β : Type) where
  actions : σ → List α
  result : σ → α → σ
  terminal_test : σ → Bool
  utility : σ → Nat → Val
  player : σ → Nat
  has_liberties : σ → Nat → Bool
  locs : σ → Nat → β
  liberties : σ → β → List α

variable {σ α β : Type}

/-- `CustomPlayer.score`: liberty-count difference between the searching
player's location and the opponent's location. -/
def score (g : GameOps σ α β) (state : σ) (player_id : Nat) : ℤ :=
  ((g.liberties state (g.locs state player_id)).length : ℤ) -
    ((g.liberties state (g.locs state (1 - player_id))).length : ℤ)

/-- State of the pruning loops of `min_value`/`max_value`: either the loop
already returned a value (`Sum.inl`), or it is still running with the
current accumulator `v` and the current `beta` (resp. `alpha`)
(`Sum.inr`).  Once the loop has returned, later actions are not examined,
exactly as Python's early `return` skips them. -/
abbrev AbLoopState := Val ⊕ Val × Val

/-- Final value of a pruning loop: the early-returned value if the loop
returned, otherwise the accumulator `v`. -/
def abExtract : AbLoopState → Val
  | Sum.inl r => r
  | Sum.inr (v, _) => v

mutual

/-- `CustomPlayer.min_value(state, player_id, depth, alpha, beta)`.
The source checks `state.terminal_test()` first and `depth == 0` second;
both depth patterns repeat the terminal check so the order of the two
guards is preserved. -/
def min_value (g : GameOps σ α β) (player_id : Nat) :
    Nat → σ → Val → Val → Val
  | 0, state, _, _ =>
    if g.terminal_test state then g.utility state player_id
    else Val.fin (score g state player_id)
  | depth + 1, state, alpha, beta =>
    if g.terminal_test state then g.utility state player_id
    else
      abExtract ((g.actions state).foldl
        (fun acc a =>
          match acc with
          | Sum.inl r => Sum.inl r
          | Sum.inr (v, b) =>
            let v' := min v (max_value g player_id depth (g.result state a) alpha b)
            if v' ≤ alpha then Sum.inl v' else Sum.inr (v', min b v'))
        (Sum.inr (⊤, beta) : AbLoopState))

/-- `CustomPlayer.max_value(state, player_id, depth, alpha, beta)`. -/
def max_value (g : GameOps σ α β) (player_id : Nat) :
    Nat → σ → Val → Val → Val
  | 0, state, _, _ =>
    if g.terminal_test state then g.utility state player_id
    else Val.fin (score g state player_id)
  | depth + 1, state, alpha, beta =>
    if g.terminal_test state then g.utility state player_id
    else
      abExtract ((g.actions state).foldl
        (fun acc a =>
          match acc with
          | Sum.inl r => Sum.inl r
          | Sum.inr (v, al) =>
            let v' := max v (min_value g player_id depth (g.result state a) al beta)
            if beta ≤ v' then Sum.inl v' else Sum.inr (v', max al v'))
        (Sum.inr (⊥, alpha) : AbLoopState))

end

mutual

/-- Unpruned depth-limited minimax value (minimising level): the reference
value the specification compares the pruned search against.  Base cases and
recursion depth are exactly those of `min_value`; the `alpha`/`beta` window
and the early return are removed. -/
def minimax_min (g : GameOps σ α β) (player_id : Nat) : Nat → σ → Val
  | 0, state =>
    if g.terminal_test state then g.utility state player_id
    else Val.fin (score g state player_id)
  | depth + 1, state =>
    if g.terminal_test state then g.utility state player_id
    else
      (g.actions state).foldl
        (fun v a => min v (minimax_max g player_id depth (g.result state a))) ⊤

/-- Unpruned depth-limited minimax value (maximising level). -/
def minimax_max (g : GameOps σ α β) (player_id : Nat) : Nat → σ → Val
  | 0, state =>
    if g.terminal_test state then g.utility state player_id
    else Val.fin (score g state player_id)
  | depth + 1, state =>
    if g.terminal_test state then g.utility state player_id
    else
      (g.actions state).foldl
        (fun v a => max v (minimax_min g player_id depth (g.result state a))) ⊥

end

/-- The `for a in state.actions()` loop of `CustomPlayer.alpha_beta_search`,
threading `alpha`, `best_score` and `best_move`.  `d0` is the `depth - 1`
passed to the recursive calls; the `beta` argument of those calls is the
never-updated `float("inf")` of the source. -/
def ab_loop (g : GameOps σ α β) (player_id : Nat) (d0 : Nat) (state : σ) :
    List α → Val → Val → Option α → Val × Option α
  | [], _, best_score, best_move => (best_score, best_move)
  | a :: rest, alpha, best_score, best_move =>
    let v := min_value g player_id d0 (g.result state a) alpha ⊤
    let alpha' := max alpha v
    if best_score ≤ v then ab_loop g player_id d0 state rest alpha' v (some a)
    else ab_loop g player_id d0 state rest alpha' best_score best_move

/-- `CustomPlayer.alpha_beta_search(state, depth)`, returning the pair
`(best_score, best_move)` of the loop's final state.  `alpha` and
`best_score` both start at `float("-inf")`, `best_move` at `None`; the
update uses the source's `v >= best_score` comparison. -/
def alpha_beta_core (g : GameOps σ α β) (player_id : Nat) (state : σ)
    (depth : Nat) : Val × Option α :=
  ab_loop g player_id (depth - 1) state (g.actions state) ⊥ ⊥ none

/-- `CustomPlayer.alpha_beta_search(state, depth)`: the returned
`best_move`. -/
def alpha_beta_search (g : GameOps σ α β) (player_id : Nat) (state : σ)
    (depth : Nat) : Option α :=
  (alpha_beta_core g player_id state depth).2

/-- Unpruned minimax value of the root: the maximum over all legal actions
of the unpruned depth-`(depth-1)` minimax value of the resulting state. -/
def minimax_root (g : GameOps σ α β) (player_id : Nat) (state : σ)
    (depth : Nat) : Val :=
  (g.actions state).foldl
    (fun m a => max m (minimax_min g player_id (depth - 1) (g.result state a))) ⊥

/-- The sequence of values `v` computed by the root loop of
`alpha_beta_search`, with the evolving `alpha` window it actually uses
(used to state which of the "values seen" the returned action attains). -/
def ab_values (g : GameOps σ α β) (player_id : Nat) (d0 : Nat) (state : σ) :
    List α → Val → List Val
  | [], _ => []
  | a :: rest, alpha =>
    min_value g player_id d0 (g.result state a) alpha ⊤ ::
      ab_values g player_id d0 state rest
        (max alpha (min_value g player_id d0 (g.result state a) alpha ⊤))

/-- The loop body of `min_value` (named for use in proofs; `min_value`
unfolds to a fold of this step function). -/
def min_step (g : GameOps σ α β) (player_id : Nat) (depth : Nat) (state : σ)
    (alpha : Val) : AbLoopState → α → AbLoopState :=
  fun acc a =>
    match acc with
    | Sum.inl r => Sum.inl r
    | Sum.inr (v, b) =>
      let v' := min v (max_value g player_id depth (g.result state a) alpha b)
      if v' ≤ alpha then Sum.inl v' else Sum.inr (v', min b v')

/-- The loop body of `max_value`. -/
def max_step (g : GameOps σ α β) (player_id : Nat) (depth : Nat) (state : σ)
    (beta : Val) : AbLoopState → α → AbLoopState :=
  fun acc a =>
    match acc with
    | Sum.inl r => Sum.inl r
    | Sum.inr (v, al) =>
      let v' := max v (min_value g player_id depth (g.result state a) al beta)
      if beta ≤ v' then Sum.inl v' else Sum.inr (v', max al v')

/-! ## MCTS: data model and engine -/

/-- `UTCNode`: one search-tree node.  The Python `parent` back-reference is
represented structurally: a node owns its children, operations that read
`parent.visits` receive the parent's visit count as an argument, and the
walk along parent pointers in `backprop` is embedded as recursion along the
root-to-leaf index path.  `reward` (a Python float accumulating `±1`
simulation results) is embedded as a real number. -/
inductive UTCNode (σ α : Type) : Type where
  | mk (visits : Nat) (reward : ℝ) (state : σ) (children : List (UTCNode σ α))
      (children_actions : List α)

def UTCNode.visits : UTCNode σ α → Nat
  | .mk v _ _ _ _ => v

def UTCNode.reward : UTCNode σ α → ℝ
  | .mk _ r _ _ _ => r

def UTCNode.state : UTCNode σ α → σ
  | .mk _ _ s _ _ => s

def UTCNode.children : UTCNode σ α → List (UTCNode σ α)
  | .mk _ _ _ cs _ => cs

def UTCNode.children_actions : UTCNode σ α → List α
  | .mk _ _ _ _ ca => ca

/-- `UTCNode.__init__(state, parent)`: `visits = 1`, `reward = 0.0`, empty
child lists. -/
def UTCNode.new (state : σ) : UTCNode σ α := .mk 1 0 state [] []

/-- `UTCNode.add_child(state, action)`: append a fresh child node and its
action. -/
def UTCNode.add_child : UTCNode σ α → σ → α → UTCNode σ α
  | .mk v r s cs ca, s', a => .mk v r s (cs ++ [UTCNode.new s']) (ca ++ [a])

/-- Replace the `i`-th child (the embedding of mutating a child in
place). -/
def UTCNode.setChild : UTCNode σ α → Nat → UTCNode σ α → UTCNode σ α
  | .mk v r s cs ca, i, c => .mk v r s (cs.set i c) ca

/-- `UTCNode.is_expanded()`: child-action count equals legal-action
count. -/
def UTCNode.is_expanded (g : GameOps σ α β) (t : UTCNode σ α) : Bool :=
  t.children_actions.length == (g.actions t.state).length

/-- `random.choice(lst)` with the random draw `k` supplied: the element at
index `k % len(lst)`; no value on the empty list (Python raises
`IndexError` there). -/
def randomChoice (k : Nat) (l : List α) : Option α := l.get? (k % l.length)

/-- Draw the next value from the injected random stream. -/
def rngDraw : List Nat → Nat × List Nat
  | [] => (0, [])
  | k :: rest => (k, rest)

/-- `CustomPlayer.exploitation(node)`: `node.reward / node.visits`. -/
noncomputable def exploitation (c : UTCNode σ α) : ℝ := c.reward / (c.visits : ℝ)

/-- `CustomPlayer.exploration(node)`:
`sqrt(log(node.parent.visits) / node.visits)`, with the parent's visit count
passed explicitly. -/
noncomputable def exploration (parent_visits : Nat) (c : UTCNode σ α) : ℝ :=
  Real.sqrt (Real.log (parent_visits : ℝ) / (c.visits : ℝ))

/-- The key of `CustomPlayer.best_child` with its default
`c_factor = sqrt(2)`: `exploitation(child) + c_factor * exploration(child)`. -/
noncomputable def ucb_score (parent_visits : Nat) (c : UTCNode σ α) : ℝ :=
  exploitation c + Real.sqrt 2 * exploration parent_visits c

/-- Python's `max(children, key=...)` keeps the first maximal element
(a later element replaces the current best only when its key is strictly
greater); `list.index` then recovers that element's position.  The fold
tracks the pair (position, node) of the current best. -/
noncomputable def best_child_aux (parent_visits : Nat) :
    List (UTCNode σ α) → Nat × UTCNode σ α → Nat → Nat × UTCNode σ α
  | [], best, _ => best
  | c :: rest, best, i =>
    best_child_aux parent_visits rest
      (if ucb_score parent_visits best.2 < ucb_score parent_visits c then (i, c)
       else best) (i + 1)

/-- `CustomPlayer.best_child(node)` combined with
`node.children.index(...)`: the position of the UCB-maximal child.
`max([])` raises in Python, embedded as `none`. -/
noncomputable def best_child_idx (t : UTCNode σ α) : Option Nat :=
  match t.children with
  | [] => none
  | c :: rest => some (best_child_aux t.visits rest (0, c) 1).1

/-- Line 81 of the source:
`children_actions[children.index(best_child(root))]`. -/
noncomputable def mcts_final_choice (t : UTCNode σ α) : Option α :=
  match best_child_idx t with
  | none => none
  | some i => t.children_actions.get? i

/-- Modelled from the claim's words (C3), for comparison with the code's
selection: decision-time choice of the root child by the exploitation-only
criterion `reward / visits` (first maximal child), returning the action
leading to it. -/
noncomputable def exploit_only_aux :
    List (UTCNode σ α) → Nat × UTCNode σ α → Nat → Nat × UTCNode σ α
  | [], best, _ => best
  | c :: rest, best, i =>
    exploit_only_aux rest
      (if exploitation best.2 < exploitation c then (i, c) else best) (i + 1)

/-- Modelled from the claim's words (C3): the action of the child with the
highest `reward / visits`, exploration bonus omitted. -/
noncomputable def exploit_only_choice (t : UTCNode σ α) : Option α :=
  match t.children with
  | [] => none
  | c :: rest => t.children_actions.get? (exploit_only_aux rest (0, c) 1).1

/-- `CustomPlayer.expand(node)`: pick a random untried action, apply it,
attach the new child; returns the updated node, the new child's index
(`node.children[-1]`), the new child's state, and the advanced random
stream.  `random.choice` of an empty untried list would raise (`none`). -/
def expand (g : GameOps σ α β) [DecidableEq α] (t : UTCNode σ α)
    (rng : List Nat) : Option (UTCNode σ α × Nat × σ × List Nat) :=
  match randomChoice (rngDraw rng).1
      ((g.actions t.state).filter (fun a => a ∉ t.children_actions)) with
  | none => none
  | some a =>
    some (t.add_child (g.result t.state a) a, t.children.length,
      g.result t.state a, (rngDraw rng).2)

/-- `CustomPlayer.tree_policy(node)`: walk down from the root while the
state is non-terminal; expand the first not-fully-expanded node and stop
there, otherwise descend to the best child.  The returned values embed the
leaf node the Python function returns: the updated tree, the index path
from the root to the leaf, the leaf's state, and the random stream.  The
fuel bounds the number of loop iterations (`none` = fuel exhausted). -/
noncomputable def tree_policy (g : GameOps σ α β) [DecidableEq α] :
    Nat → UTCNode σ α → List Nat → Option (UTCNode σ α × List Nat × σ × List Nat)
  | 0, _, _ => none
  | fuel + 1, t, rng =>
    if g.terminal_test t.state then some (t, [], t.state, rng)
    else if t.is_expanded g then
      match best_child_idx t with
      | none => none
      | some i =>
        match t.children.get? i with
        | none => none
        | some c =>
          match tree_policy g fuel c rng with
          | none => none
          | some (c', p, leaf, rng') => some (t.setChild i c', i :: p, leaf, rng')
    else
      match expand g t rng with
      | none => none
      | some (t', i, leaf, rng') => some (t', [i], leaf, rng')

/-- The `while not state.terminal_test()` playout loop of
`CustomPlayer.default_policy`, with fuel. -/
def rollout (g : GameOps σ α β) : Nat → σ → List Nat → Option (σ × List Nat)
  | 0, state, rng => if g.terminal_test state then some (state, rng) else none
  | fuel + 1, state, rng =>
    if g.terminal_test state then some (state, rng)
    else
      match randomChoice (rngDraw rng).1 (g.actions state) with
      | none => none
      | some a => rollout g fuel (g.result state a) (rngDraw rng).2

/-- `CustomPlayer.default_policy(state)`: record the player to move at the
start, play out randomly to a terminal state, then reward `-1` if that
player still has liberties there and `+1` otherwise. -/
def default_policy (g : GameOps σ α β) (sim_fuel : Nat) (state : σ)
    (rng : List Nat) : Option (ℤ × List Nat) :=
  match rollout g sim_fuel state rng with
  | none => none
  | some (final, rng') =>
    if g.has_liberties final (g.player state) then some (-1, rng')
    else some (1, rng')

/-- `CustomPlayer.backprop(node, reward)`: the source walks from the leaf
to the root along parent pointers, at each node adding the current reward,
incrementing the visit count and negating the reward.  Embedded as
recursion along the root-to-leaf index path: the recursive call updates the
subtree below and returns the (already negated) reward the current node
must add, exactly the value the Python loop's `reward` variable holds when
it reaches this node; the function returns the node's own negated reward
for its parent in turn. -/
def backprop : UTCNode σ α → List Nat → ℝ → Option (UTCNode σ α × ℝ)
  | .mk v r s cs ca, [], reward => some (.mk (v + 1) (r + reward) s cs ca, -reward)
  | .mk v r s cs ca, i :: p, reward =>
    match cs.get? i with
    | none => none
    | some c =>
      match backprop c p reward with
      | none => none
      | some (c', rp) => some (.mk (v + 1) (r + rp) s (cs.set i c') ca, -rp)

/-- One iteration of the MCTS main loop: `tree_policy`, `default_policy`,
`backprop`. -/
noncomputable def mcts_iter (g : GameOps σ α β) [DecidableEq α]
    (tp_fuel sim_fuel : Nat) (t : UTCNode σ α) (rng : List Nat) :
    Option (UTCNode σ α × List Nat) :=
  match tree_policy g tp_fuel t rng with
  | none => none
  | some (t', path, leaf, rng') =>
    match default_policy g sim_fuel leaf rng' with
    | none => none
    | some (reward, rng'') =>
      match backprop t' path (reward : ℝ) with
      | none => none
      | some (t'', _) => some (t'', rng'')

/-- The `while time.time() < time_end` loop, embedded with the number of
completed iterations as fuel: `iters = 0` is a deadline that has already
passed when the loop condition is first checked. -/
noncomputable def mcts_loop (g : GameOps σ α β) [DecidableEq α]
    (tp_fuel sim_fuel : Nat) : Nat → UTCNode σ α → List Nat →
    Option (UTCNode σ α × List Nat)
  | 0, t, rng => some (t, rng)
  | n + 1, t, rng =>
    match mcts_iter g tp_fuel sim_fuel t rng with
    | none => none
    | some (t', rng') => mcts_loop g tp_fuel sim_fuel n t' rng'

/-- `CustomPlayer.MCTS_search(state)`: build the root, short-circuit to a
random legal action on a terminal root, otherwise run the loop and return
`children_actions[children.index(best_child(root))]`. -/
noncomputable def MCTS_search (g : GameOps σ α β) [DecidableEq α]
    (iters tp_fuel sim_fuel : Nat) (state : σ) (rng : List Nat) : Option α :=
  if g.terminal_test state then randomChoice (rngDraw rng).1 (g.actions state)
  else
    match mcts_loop g tp_fuel sim_fuel iters (UTCNode.new state) rng with
    | none => none
    | some (t, _) => mcts_final_choice t

/-- The node stored at an index path of the tree (`[]` is the root). -/
def subtreeAt : UTCNode σ α → List Nat → Option (UTCNode σ α)
  | t, [] => some t
  | t, i :: p =>
    match t.children.get? i with
    | none => none
    | some c => subtreeAt c p

/-! ## Concrete games and trees used for scenarios and counterexamples -/

/-- A two-ply game exhibiting the pruning effect on the root's `>=`
tie-break: from state `0`, action `1` leads to state `1` (one child of
static score `5`), action `2` leads to state `2` (children of static
scores `5` and `3`).  States, actions and locations are natural numbers;
liberty lists realise the static scores. -/
def cg2 : GameOps Nat Nat Nat where
  actions s :=
    if s = 0 then [1, 2] else if s = 1 then [1] else if s = 2 then [1, 2] else []
  result s a :=
    match s, a with
    | 0, 1 => 1 | 0, 2 => 2 | 1, 1 => 11 | 2, 1 => 21 | 2, 2 => 22 | _, _ => 99
  terminal_test _ := false
  utility _ _ := 0
  player _ := 0
  has_liberties _ _ := false
  locs _ p := p
  liberties s loc :=
    if loc = 0 then
      (if s = 11 then List.replicate 5 0 else if s = 21 then List.replicate 5 0
       else if s = 22 then List.replicate 3 0 else [])
    else []

/-- The specification's depth-1 scenario: three legal actions from state
`0`, each leading immediately to a terminal state, with utilities
`+1, -1, +1` for the searching player. -/
def cg6 : GameOps Nat Nat Nat where
  actions s := if s = 0 then [1, 2, 3] else []
  result _ a := a
  terminal_test s := s ≠ 0
  utility s _ := if s = 2 then Val.fin (-1) else Val.fin 1
  player _ := 0
  has_liberties _ _ := false
  locs _ p := p
  liberties s loc := if s = 0 ∧ loc = 0 then [7] else []

/-- A minimal game for exercising MCTS: state `0` is non-terminal with the
single action `7` leading to terminal state `1` (no actions there); state
`2` is terminal but still has a legal action `9` (the opponent is the
blocked player). -/
def cg1 : GameOps Nat Nat Nat where
  actions s := if s = 0 then [7] else if s = 2 then [9] else []
  result _ _ := 1
  terminal_test s := s ≠ 0
  utility _ _ := 0
  player _ := 0
  has_liberties _ _ := false
  locs _ p := p
  liberties s loc := if s = 0 ∧ loc = 0 then [7] else []

/-- A root-node statistics snapshot after six completed iterations:
child `ca` (action `10`) has 8 visits and reward 4 (mean `0.5`), child `cb`
(action `20`) has 2 visits and reward 0 (mean `0`); the root has
`1 + 8 + 2 = 11` visits. -/
def ca : UTCNode Nat Nat := UTCNode.mk 8 4 1 [] []

def cb : UTCNode Nat Nat := UTCNode.mk 2 0 2 [] []

def croot : UTCNode Nat Nat := UTCNode.mk 11 (-2) 0 [ca, cb] [10, 20]

/-! ## Order algebra for the pruning proof -/

/-- With a valid window `al ≤ be`, the two clamping operators agree. -/
theorem val_clamp_comm {al be x : Val} (hab : al ≤ be) :
    max al (min x be) = min be (max x al) := by
  rw [max_min_distrib_left, max_eq_right hab, max_comm x al, min_comm]

/-- Transferring a clamp equality from window `(al, b)` to `(al, min b r)`. -/
theorem val_clamp_transfer_min (al b r x : Val) :
    max al (min x (min b r)) = max al (min (max al (min x b)) r) :=
  calc max al (min x (min b r))
      = max al (min (min x b) r) := by rw [min_assoc]
    _ = min (max al (min x b)) (max al r) := max_min_distrib_left _ _ _
    _ = min (max al (max al (min x b))) (max al r) := by rw [← max_assoc, max_self]
    _ = max al (min (max al (min x b)) r) := (max_min_distrib_left _ _ _).symm

/-- Transferring a clamp equality from window `(b, be)` to `(max b r, be)`. -/
theorem val_clamp_transfer_max (be b r x : Val) :
    min be (max x (max b r)) = min be (max (min be (max x b)) r) :=
  calc min be (max x (max b r))
      = min be (max (max x b) r) := by rw [max_assoc]
    _ = max (min be (max x b)) (min be r) := min_max_distrib_left _ _ _
    _ = max (min be (min be (max x b))) (min be r) := by rw [← min_assoc, min_self]
    _ = min be (max (min be (max x b)) r) := (min_max_distrib_left _ _ _).symm

/-- A fold of `min` never rises above its start. -/
theorem foldl_min_le_start (f : α → Val) :
    ∀ (l : List α) (x : Val), l.foldl (fun v a => min v (f a)) x ≤ x := by
  intro l
  induction l with
  | nil => intro x; exact le_refl x
  | cons a t ih =>
    intro x
    exact le_trans (ih (min x (f a))) (min_le_left _ _)

/-- A fold of `max` never falls below its start. -/
theorem foldl_max_ge_start (f : α → Val) :
    ∀ (l : List α) (x : Val), x ≤ l.foldl (fun v a => max v (f a)) x := by
  intro l
  induction l with
  | nil => intro x; exact le_refl x
  | cons a t ih =>
    intro x
    exact le_trans (le_max_left _ _) (ih (max x (f a)))

/-- Factoring the start out of a fold of `min`. -/
theorem foldl_min_factor (f : α → Val) :
    ∀ (l : List α) (x : Val),
      l.foldl (fun v a => min v (f a)) x =
        min x (l.foldl (fun v a => min v (f a)) ⊤) := by
  intro l
  induction l with
  | nil => intro x; exact (min_eq_left le_top).symm
  | cons a t ih =>
    intro x
    simp only [List.foldl_cons]
    rw [ih (min x (f a)), ih (min ⊤ (f a)), min_eq_right le_top, min_assoc]

/-- Factoring the start out of a fold of `max`. -/
theorem foldl_max_factor (f : α → Val) :
    ∀ (l : List α) (x : Val),
      l.foldl (fun v a => max v (f a)) x =
        max x (l.foldl (fun v a => max v (f a)) ⊥) := by
  intro l
  induction l with
  | nil => intro x; exact (max_eq_left bot_le).symm
  | cons a t ih =>
    intro x
    simp only [List.foldl_cons]
    rw [ih (max x (f a)), ih (max ⊥ (f a)), max_eq_right bot_le, max_assoc]

/-- Once a pruning loop has returned, later actions leave it unchanged. -/
theorem foldl_inl_absorb (f : AbLoopState → α → AbLoopState)
    (hf : ∀ r a, f (Sum.inl r) a = Sum.inl r) :
    ∀ (l : List α) (r : Val), l.foldl f (Sum.inl r) = Sum.inl r := by
  intro l
  induction l with
  | nil => intro r; rfl
  | cons a t ih => intro r; simp only [List.foldl_cons, hf]; exact ih r

theorem min_value_succ (g : GameOps σ α β) (player_id depth : Nat) (state : σ)
    (alpha beta : Val) (ht : g.terminal_test state = false) :
    min_value g player_id (depth + 1) state alpha beta =
      abExtract ((g.actions state).foldl (min_step g player_id depth state alpha)
        (Sum.inr (⊤, beta))) := by
  simp only [min_value, ht, Bool.false_eq_true, if_false]
  rfl

theorem max_value_succ (g : GameOps σ α β) (player_id depth : Nat) (state : σ)
    (alpha beta : Val) (ht : g.terminal_test state = false) :
    max_value g player_id (depth + 1) state alpha beta =
      abExtract ((g.actions state).foldl (max_step g player_id depth state beta)
        (Sum.inr (⊥, alpha))) := by
  simp only [max_value, ht, Bool.false_eq_true, if_false]
  rfl

theorem min_step_inl (g : GameOps σ α β) (player_id depth : Nat) (state : σ)
    (alpha : Val) (r : Val) (a : α) :
    min_step g player_id depth state alpha (Sum.inl r) a = Sum.inl r := rfl

theorem max_step_inl (g : GameOps σ α β) (player_id depth : Nat) (state : σ)
    (beta : Val) (r : Val) (a : α) :
    max_step g player_id depth state beta (Sum.inl r) a = Sum.inl r := rfl

theorem min_step_inr (g : GameOps σ α β) (player_id depth : Nat) (state : σ)
    (alpha : Val) (v b : Val) (a : α) :
    min_step g player_id depth state alpha (Sum.inr (v, b)) a =
      (if min v (max_value g player_id depth (g.result state a) alpha b) ≤ alpha
       then Sum.inl (min v (max_value g player_id depth (g.result state a) alpha b))
       else Sum.inr (min v (max_value g player_id depth (g.result state a) alpha b),
         min b (min v (max_value g player_id depth (g.result state a) alpha b)))) := rfl

theorem max_step_inr (g : GameOps σ α β) (player_id depth : Nat) (state : σ)
    (beta : Val) (v al : Val) (a : α) :
    max_step g player_id depth state beta (Sum.inr (v, al)) a =
      (if beta ≤ max v (min_value g player_id depth (g.result state a) al beta)
       then Sum.inl (max v (min_value g player_id depth (g.result state a) al beta))
       else Sum.inr (max v (min_value g player_id depth (g.result state a) al beta),
         max al (max v (min_value g player_id depth (g.result state a) al beta)))) := rfl

theorem abExtract_inl (r : Val) : abExtract (Sum.inl r) = r := rfl

theorem abExtract_inr (v b : Val) : abExtract (Sum.inr (v, b)) = v := rfl

theorem val_min_ac (v x R be : Val) :
    min (min (min v x) R) be = min x (min (min be v) R) := by
  simp [min_assoc, min_comm, min_left_comm]

theorem val_max_ac (v x R al : Val) :
    max (max (max v x) R) al = max x (max (max al v) R) := by
  simp [max_assoc, max_comm, max_left_comm]

/-- Knuth–Moore correctness of the pruning: at every depth, inside any
valid window `al ≤ be`, the pruned search value and the unpruned minimax
value clamp to the same result.  (Outside the window the pruned value may
differ — that is what pruning does.) -/
theorem minmax_bracket (g : GameOps σ α β) (player_id : Nat) :
    ∀ (d : Nat) (state : σ) (al be : Val), al ≤ be →
      max al (min (min_value g player_id d state al be) be) =
        max al (min (minimax_min g player_id d state) be) ∧
      min be (max (max_value g player_id d state al be) al) =
        min be (max (minimax_max g player_id d state) al) := by
  intro d
  induction d with
  | zero =>
    intro state al be _
    constructor
    · simp only [min_value, minimax_min]
    · simp only [max_value, minimax_max]
  | succ d ih =>
    intro state al be hab
    by_cases ht : g.terminal_test state = true
    · constructor
      · simp only [min_value, minimax_min, ht, if_true]
      · simp only [max_value, minimax_max, ht, if_true]
    · have ht' : g.terminal_test state = false := eq_false_of_ne_true ht
      constructor
      · -- minimising level
        rw [min_value_succ g player_id d state al be ht']
        have hmm : minimax_min g player_id (d + 1) state =
            (g.actions state).foldl
              (fun v a => min v (minimax_max g player_id d (g.result state a))) ⊤ := by
          simp only [minimax_min, ht', Bool.false_eq_true, if_false]
        rw [hmm]
        have hinit : (Sum.inr (⊤, be) : AbLoopState) = Sum.inr (⊤, min be ⊤) := by
          rw [min_eq_left le_top]
        rw [hinit]
        have loop : ∀ (as : List α) (v : Val), al ≤ v →
            max al (min (abExtract (as.foldl (min_step g player_id d state al)
              (Sum.inr (v, min be v)))) be) =
            max al (min (as.foldl
              (fun x a => min x (minimax_max g player_id d (g.result state a))) v) be) := by
          intro as
          induction as with
          | nil => intro v _; rfl
          | cons a t iht =>
            intro v hv
            simp only [List.foldl_cons, min_step_inr]
            by_cases hp :
                min v (max_value g player_id d (g.result state a) al (min be v)) ≤ al
            · rw [if_pos hp, foldl_inl_absorb _ (fun r a => rfl), abExtract_inl]
              have hL :
                  max al (min (min v (max_value g player_id d (g.result state a) al
                    (min be v))) be) = al :=
                max_eq_left (le_trans (min_le_left _ _) hp)
              rw [hL]
              have hT : t.foldl
                  (fun x a => min x (minimax_max g player_id d (g.result state a)))
                  (min v (minimax_max g player_id d (g.result state a))) ≤
                  min v (minimax_max g player_id d (g.result state a)) :=
                foldl_min_le_start _ t _
              rcases min_le_iff.mp hp with hva | hmva
              · exact (max_eq_left (le_trans (min_le_left _ _)
                  (le_trans hT (le_trans (min_le_left _ _) hva)))).symm
              · have hw : al ≤ min be v := le_min hab hv
                have ihm := (ih (g.result state a) al (min be v) hw).2
                rw [max_eq_right hmva, min_eq_right hw] at ihm
                rcases min_eq_iff.mp ihm.symm with ⟨h1, _⟩ | ⟨h2, _⟩
                · rcases min_eq_iff.mp h1 with ⟨hbe, _⟩ | ⟨hvv, _⟩
                  · exact (max_eq_left (le_trans (min_le_right _ _) (le_of_eq hbe))).symm
                  · exact (max_eq_left (le_trans (min_le_left _ _)
                      (le_trans hT (le_trans (min_le_left _ _) (le_of_eq hvv))))).symm
                · have htcal : minimax_max g player_id d (g.result state a) ≤ al :=
                    h2 ▸ le_max_left _ _
                  exact (max_eq_left (le_trans (min_le_left _ _)
                    (le_trans hT (le_trans (min_le_right _ _) htcal)))).symm
            · rw [if_neg hp]
              have hlt : al < min v (max_value g player_id d (g.result state a) al
                  (min be v)) := lt_of_not_le hp
              have hb : min (min be v)
                  (min v (max_value g player_id d (g.result state a) al (min be v))) =
                  min be (min v (max_value g player_id d (g.result state a) al
                    (min be v))) := by
                rw [min_assoc, ← min_assoc v v, min_self]
              rw [hb, iht _ (le_of_lt hlt)]
              rw [foldl_min_factor _ t
                    (min v (max_value g player_id d (g.result state a) al (min be v))),
                  foldl_min_factor _ t
                    (min v (minimax_max g player_id d (g.result state a)))]
              rw [val_min_ac v
                    (max_value g player_id d (g.result state a) al (min be v)) _ be,
                  val_min_ac v (minimax_max g player_id d (g.result state a)) _ be]
              rw [val_clamp_transfer_min al (min be v) _
                    (max_value g player_id d (g.result state a) al (min be v)),
                  val_clamp_transfer_min al (min be v) _
                    (minimax_max g player_id d (g.result state a))]
              have hw : al ≤ min be v := le_min hab hv
              have ihm := (ih (g.result state a) al (min be v) hw).2
              rw [← val_clamp_comm hw, ← val_clamp_comm hw] at ihm
              rw [ihm]
        exact loop (g.actions state) ⊤ le_top
      · -- maximising level
        rw [max_value_succ g player_id d state al be ht']
        have hmm : minimax_max g player_id (d + 1) state =
            (g.actions state).foldl
              (fun v a => max v (minimax_min g player_id d (g.result state a))) ⊥ := by
          simp only [minimax_max, ht', Bool.false_eq_true, if_false]
        rw [hmm]
        have hinit : (Sum.inr (⊥, al) : AbLoopState) = Sum.inr (⊥, max al ⊥) := by
          rw [max_eq_left bot_le]
        rw [hinit]
        have loop : ∀ (as : List α) (v : Val), v ≤ be →
            min be (max (abExtract (as.foldl (max_step g player_id d state be)
              (Sum.inr (v, max al v)))) al) =
            min be (max (as.foldl
              (fun x a => max x (minimax_min g player_id d (g.result state a))) v) al) := by
          intro as
          induction as with
          | nil => intro v _; rfl
          | cons a t iht =>
            intro v hv
            simp only [List.foldl_cons, max_step_inr]
            by_cases hp :
                be ≤ max v (min_value g player_id d (g.result state a) (max al v) be)
            · rw [if_pos hp, foldl_inl_absorb _ (fun r a => rfl), abExtract_inl]
              have hL :
                  min be (max (max v (min_value g player_id d (g.result state a)
                    (max al v) be)) al) = be :=
                min_eq_left (le_trans hp (le_max_left _ _))
              rw [hL]
              have hT : max v (minimax_min g player_id d (g.result state a)) ≤
                  t.foldl
                    (fun x a => max x (minimax_min g player_id d (g.result state a)))
                    (max v (minimax_min g player_id d (g.result state a))) :=
                foldl_max_ge_start _ t _
              rcases le_max_iff.mp hp with hbv | hbm
              · exact (min_eq_left (le_trans hbv (le_trans (le_max_left _ _)
                  (le_trans hT (le_max_left _ _))))).symm
              · have hw : max al v ≤ be := max_le hab hv
                have ihm := (ih (g.result state a) (max al v) be hw).1
                rw [min_eq_right hbm, max_eq_right hw] at ihm
                rcases max_eq_iff.mp ihm.symm with ⟨h1, _⟩ | ⟨h2, _⟩
                · rcases max_eq_iff.mp h1 with ⟨hbe, _⟩ | ⟨hvv, _⟩
                  · exact (min_eq_left (le_trans (le_of_eq hbe.symm)
                      (le_max_right _ _))).symm
                  · exact (min_eq_left (le_trans (le_of_eq hvv.symm)
                      (le_trans (le_max_left _ _) (le_trans hT (le_max_left _ _))))).symm
                · have htcal : be ≤ minimax_min g player_id d (g.result state a) :=
                    h2 ▸ min_le_left _ _
                  exact (min_eq_left (le_trans htcal (le_trans (le_max_right _ _)
                    (le_trans hT (le_max_left _ _))))).symm
            · rw [if_neg hp]
              have hlt : max v (min_value g player_id d (g.result state a) (max al v) be)
                  < be := lt_of_not_le hp
              have hb : max (max al v)
                  (max v (min_value g player_id d (g.result state a) (max al v) be)) =
                  max al (max v (min_value g player_id d (g.result state a) (max al v)
                    be)) := by
                rw [max_assoc, ← max_assoc v v, max_self]
              rw [hb, iht _ (le_of_lt hlt)]
              rw [foldl_max_factor _ t
                    (max v (min_value g player_id d (g.result state a) (max al v) be)),
                  foldl_max_factor _ t
                    (max v (minimax_min g player_id d (g.result state a)))]
              rw [val_max_ac v
                    (min_value g player_id d (g.result state a) (max al v) be) _ al,
                  val_max_ac v (minimax_min g player_id d (g.result state a)) _ al]
              rw [val_clamp_transfer_max be (max al v) _
                    (min_value g player_id d (g.result state a) (max al v) be),
                  val_clamp_transfer_max be (max al v) _
                    (minimax_min g player_id d (g.result state a))]
              have hw : max al v ≤ be := max_le hab hv
              have ihm := (ih (g.result state a) (max al v) be hw).1
              rw [val_clamp_comm hw, val_clamp_comm hw] at ihm
              rw [ihm]
        exact loop (g.actions state) ⊥ bot_le

/-- A fold of `max` whose start dominates every element stays at its
start. -/
theorem foldl_max_eq_start :
    ∀ (l : List Val) (s : Val), (∀ x ∈ l, x ≤ s) →
      l.foldl (fun m v => max m v) s = s := by
  intro l
  induction l with
  | nil => intro s _; rfl
  | cons x t ih =>
    intro s hs
    simp only [List.foldl_cons]
    rw [max_eq_left (hs x (List.mem_cons_self x t))]
    exact ih s (fun y hy => hs y (List.mem_cons_of_mem x hy))

/-- The final `best_score` of the root loop is the fold of the true
(unpruned) child values: `alpha` and `best_score` evolve together, and the
bracketing theorem turns each windowed value into the true value under
`max alpha ·`. -/
theorem ab_loop_fst (g : GameOps σ α β) (player_id d0 : Nat) (state : σ) :
    ∀ (as : List α) (al : Val) (bm : Option α),
      (ab_loop g player_id d0 state as al al bm).1 =
        as.foldl
          (fun m a => max m (minimax_min g player_id d0 (g.result state a))) al := by
  intro as
  induction as with
  | nil => intro al bm; rfl
  | cons a t iht =>
    intro al bm
    simp only [ab_loop, List.foldl_cons]
    have hbr := (minmax_bracket g player_id d0 (g.result state a) al ⊤ le_top).1
    rw [min_eq_left le_top, min_eq_left le_top] at hbr
    by_cases hc : al ≤ min_value g player_id d0 (g.result state a) al ⊤
    · rw [if_pos hc]
      have h1 : max al (min_value g player_id d0 (g.result state a) al ⊤) =
          min_value g player_id d0 (g.result state a) al ⊤ := max_eq_right hc
      rw [h1, iht]
      rw [h1] at hbr
      rw [← hbr]
    · rw [if_neg hc]
      have h1 : max al (min_value g player_id d0 (g.result state a) al ⊤) = al :=
        max_eq_left (le_of_lt (lt_of_not_le hc))
      rw [h1, iht]
      rw [h1] at hbr
      rw [← hbr]

/-- The move returned by the root loop is either the incoming `best_move`
or one of the listed actions. -/
theorem ab_loop_mem (g : GameOps σ α β) (player_id d0 : Nat) (state : σ) :
    ∀ (as : List α) (al bs : Val) (bm : Option α),
      (ab_loop g player_id d0 state as al bs bm).2 = bm ∨
        ∃ a ∈ as, (ab_loop g player_id d0 state as al bs bm).2 = some a := by
  intro as
  induction as with
  | nil => intro al bs bm; exact Or.inl rfl
  | cons a t iht =>
    intro al bs bm
    simp only [ab_loop]
    by_cases hc : bs ≤ min_value g player_id d0 (g.result state a) al ⊤
    · rw [if_pos hc]
      rcases iht (max al (min_value g player_id d0 (g.result state a) al ⊤))
          (min_value g player_id d0 (g.result state a) al ⊤) (some a) with h | ⟨a', ha', h⟩
      · exact Or.inr ⟨a, List.mem_cons_self a t, h⟩
      · exact Or.inr ⟨a', List.mem_cons_of_mem a ha', h⟩
    · rw [if_neg hc]
      rcases iht (max al (min_value g player_id d0 (g.result state a) al ⊤))
          bs bm with h | ⟨a', ha', h⟩
      · exact Or.inl h
      · exact Or.inr ⟨a', List.mem_cons_of_mem a ha', h⟩

theorem foldl_vmax_ge_start : ∀ (l : List Val) (s : Val),
    s ≤ l.foldl (fun m v => max m v) s := by
  intro l
  induction l with
  | nil => intro s; exact le_refl s
  | cons x t ih => intro s; exact le_trans (le_max_left s x) (ih (max s x))

theorem foldl_vmax_ge_mem : ∀ (l : List Val) (s x : Val), x ∈ l →
    x ≤ l.foldl (fun m v => max m v) s := by
  intro l
  induction l with
  | nil => intro s x hx; exact absurd hx (List.not_mem_nil x)
  | cons y t ih =>
    intro s x hx
    simp only [List.foldl_cons]
    rcases List.mem_cons.mp hx with h | h
    · subst h
      exact le_trans (le_max_right s x) (foldl_vmax_ge_start t (max s x))
    · exact ih (max s y) x h

/-- The final `best_score` of the root loop is the running maximum of the
values it saw. -/
theorem ab_loop_fst_values (g : GameOps σ α β) (player_id d0 : Nat) (state : σ) :
    ∀ (as : List α) (al : Val) (bm : Option α),
      (ab_loop g player_id d0 state as al al bm).1 =
        (ab_values g player_id d0 state as al).foldl (fun m v => max m v) al := by
  intro as
  induction as with
  | nil => intro al bm; rfl
  | cons a t iht =>
    intro al bm
    simp only [ab_loop, ab_values, List.foldl_cons]
    by_cases hc : al ≤ min_value g player_id d0 (g.result state a) al ⊤
    · rw [if_pos hc, max_eq_right hc, iht]
    · rw [if_neg hc, max_eq_left (le_of_lt (lt_of_not_le hc)), iht]

/-- Last-argmax characterisation of the root loop: starting from
`best_score = alpha` and any incoming move, either no value seen reaches
`alpha` and the incoming move is kept, or the returned move is the action
at the last index whose value equals the final `best_score`, every later
value being strictly smaller. -/
theorem ab_loop_spec (g : GameOps σ α β) (player_id d0 : Nat) (state : σ) :
    ∀ (as : List α) (al : Val) (bm : Option α),
      ((ab_loop g player_id d0 state as al al bm).2 = bm ∧
        ∀ j v', (ab_values g player_id d0 state as al).get? j = some v' → v' < al) ∨
      (∃ i a, as.get? i = some a ∧
        (ab_values g player_id d0 state as al).get? i =
          some (ab_loop g player_id d0 state as al al bm).1 ∧
        (ab_loop g player_id d0 state as al al bm).2 = some a ∧
        ∀ j v', i < j →
          (ab_values g player_id d0 state as al).get? j = some v' →
          v' < (ab_loop g player_id d0 state as al al bm).1) := by
  intro as
  induction as with
  | nil =>
    intro al bm
    refine Or.inl ⟨rfl, ?_⟩
    intro j v' h
    simp [ab_values] at h
  | cons a t iht =>
    intro al bm
    simp only [ab_loop, ab_values]
    by_cases hc : al ≤ min_value g player_id d0 (g.result state a) al ⊤
    · rw [if_pos hc, max_eq_right hc]
      rcases iht (min_value g player_id d0 (g.result state a) al ⊤) (some a) with
        ⟨hfm, hlt⟩ | ⟨i, a', hget, hval, hfm, hlater⟩
      · -- no later value reaches the head value: the head is the last argmax
        have hle : ∀ x ∈ ab_values g player_id d0 state t
            (min_value g player_id d0 (g.result state a) al ⊤),
            x ≤ min_value g player_id d0 (g.result state a) al ⊤ := by
          intro x hx
          rcases List.mem_iff_get?.mp hx with ⟨n, hn⟩
          exact le_of_lt (hlt n x hn)
        have hfs : (ab_loop g player_id d0 state t
            (min_value g player_id d0 (g.result state a) al ⊤)
            (min_value g player_id d0 (g.result state a) al ⊤) (some a)).1 =
            min_value g player_id d0 (g.result state a) al ⊤ := by
          rw [ab_loop_fst_values]
          exact foldl_max_eq_start _ _ hle
        refine Or.inr ⟨0, a, rfl, ?_, hfm, ?_⟩
        · rw [hfs]; rfl
        · intro j v' hj hjv
          cases j with
          | zero => exact absurd hj (lt_irrefl 0)
          | succ j' =>
            rw [List.get?_cons_succ] at hjv
            rw [hfs]
            exact hlt j' v' hjv
      · refine Or.inr ⟨i + 1, a', ?_, ?_, hfm, ?_⟩
        · rw [List.get?_cons_succ]; exact hget
        · rw [List.get?_cons_succ]; exact hval
        · intro j v' hj hjv
          cases j with
          | zero => exact absurd hj (Nat.not_lt_zero _)
          | succ j' =>
            rw [List.get?_cons_succ] at hjv
            exact hlater j' v' (Nat.lt_of_succ_lt_succ hj) hjv
    · rw [if_neg hc, max_eq_left (le_of_lt (lt_of_not_le hc))]
      rcases iht al bm with ⟨hfm, hlt⟩ | ⟨i, a', hget, hval, hfm, hlater⟩
      · refine Or.inl ⟨hfm, ?_⟩
        intro j v' hjv
        cases j with
        | zero =>
          rw [List.get?_cons_zero] at hjv
          cases hjv
          exact lt_of_not_le hc
        | succ j' =>
          rw [List.get?_cons_succ] at hjv
          exact hlt j' v' hjv
      · refine Or.inr ⟨i + 1, a', ?_, ?_, hfm, ?_⟩
        · rw [List.get?_cons_succ]; exact hget
        · rw [List.get?_cons_succ]; exact hval
        · intro j v' hj hjv
          cases j with
          | zero => exact absurd hj (Nat.not_lt_zero _)
          | succ j' =>
            rw [List.get?_cons_succ] at hjv
            exact hlater j' v' (Nat.lt_of_succ_lt_succ hj) hjv

/-! ## Claims about the alpha-beta engine -/

/-- On a state with at least one legal action the root loop always selects
a move: the first iteration's `float("-inf") <= v` comparison always
succeeds. -/
theorem alpha_beta_search_mem (g : GameOps σ α β) (player_id : Nat) (state : σ)
    (depth : Nat) (hne : g.actions state ≠ []) :
    ∃ a ∈ g.actions state, alpha_beta_search g player_id state depth = some a := by
  obtain ⟨a0, t, he⟩ := List.exists_cons_of_ne_nil hne
  unfold alpha_beta_search alpha_beta_core
  rw [he]
  simp only [ab_loop]
  rw [if_pos (bot_le :
    (⊥ : Val) ≤ min_value g player_id (depth - 1) (g.result state a0) ⊥ ⊤)]
  rcases ab_loop_mem g player_id (depth - 1) state t
      (max ⊥ (min_value g player_id (depth - 1) (g.result state a0) ⊥ ⊤))
      (min_value g player_id (depth - 1) (g.result state a0) ⊥ ⊤) (some a0) with
    h | ⟨a', ha', h⟩
  · exact ⟨a0, List.mem_cons_self a0 t, h⟩
  · exact ⟨a', List.mem_cons_of_mem a0 ha', h⟩

/-- C2, counterexample.  In `cg2` at depth 2, alpha-beta returns action `2`
with final `best_score` 5, but the unpruned depth-1 minimax value of action
`2` is 3: pruning made a cut-off value look like a tie, and the `>=`
tie-break then switched the returned move to an action whose true value is
lower.  The claim's equality fails. -/
theorem claim_C2_counterexample :
    alpha_beta_search cg2 0 0 2 = some 2 ∧
    (2 : ℕ) ∈ cg2.actions 0 ∧
    (alpha_beta_core cg2 0 0 2).1 = Val.fin 5 ∧
    minimax_min cg2 0 1 (cg2.result 0 2) = Val.fin 3 ∧
    (alpha_beta_core cg2 0 0 2).1 ≠ minimax_min cg2 0 1 (cg2.result 0 2) := by
  refine ⟨by decide, by decide, by decide, by decide, by decide⟩

/-- C2, amended.  For any state with at least one legal action,
`alpha_beta_search` returns a legal action, and the final `best_score`
equals the unpruned minimax value of the root (the maximum over all legal
actions of their unpruned values); the returned action's own unpruned value
may however be smaller. -/
theorem claim_C2_amended (g : GameOps σ α β) (player_id : Nat) (state : σ)
    (depth : Nat) (hne : g.actions state ≠ []) :
    (∃ a ∈ g.actions state, alpha_beta_search g player_id state depth = some a) ∧
    (alpha_beta_core g player_id state depth).1 =
      minimax_root g player_id state depth := by
  refine ⟨alpha_beta_search_mem g player_id state depth hne, ?_⟩
  unfold alpha_beta_core minimax_root
  exact ab_loop_fst g player_id (depth - 1) state (g.actions state) ⊥ none

/-- C2, witness for the amended theorem at the concrete game `cg2`. -/
theorem claim_C2_witness :
    cg2.actions 0 ≠ [] ∧
    ((∃ a ∈ cg2.actions 0, alpha_beta_search cg2 0 0 2 = some a) ∧
      (alpha_beta_core cg2 0 0 2).1 = minimax_root cg2 0 0 2) :=
  ⟨by decide, claim_C2_amended cg2 0 0 2 (by decide)⟩

/-- C6.  The root loop of `alpha_beta_search` walks the legal actions in
enumeration order; among the values it computes (depth-(limit-1) searches
with the evolving `alpha` window, `ab_values`), the returned action sits at
an index whose value equals the final `best_score`, every value is at most
that score, and every strictly later value is strictly below it — i.e. the
returned action is the most recently enumerated maximal one (`>=`
tie-break). -/
theorem claim_C6 (g : GameOps σ α β) (player_id : Nat) (state : σ) (depth : Nat)
    (hne : g.actions state ≠ []) :
    ∃ i a, (g.actions state).get? i = some a ∧
      alpha_beta_search g player_id state depth = some a ∧
      (ab_values g player_id (depth - 1) state (g.actions state) ⊥).get? i =
        some (alpha_beta_core g player_id state depth).1 ∧
      (∀ j v', (ab_values g player_id (depth - 1) state (g.actions state) ⊥).get? j =
          some v' → v' ≤ (alpha_beta_core g player_id state depth).1) ∧
      (∀ j v', i < j →
        (ab_values g player_id (depth - 1) state (g.actions state) ⊥).get? j =
          some v' → v' < (alpha_beta_core g player_id state depth).1) := by
  rcases ab_loop_spec g player_id (depth - 1) state (g.actions state) ⊥ none with
    ⟨hfm, hlt⟩ | ⟨i, a, hget, hval, hfm, hlater⟩
  · exfalso
    obtain ⟨a0, t, he⟩ := List.exists_cons_of_ne_nil hne
    have h0 : (ab_values g player_id (depth - 1) state (g.actions state) ⊥).get? 0 =
        some (min_value g player_id (depth - 1) (g.result state a0) ⊥ ⊤) := by
      rw [he]; rfl
    exact absurd (hlt 0 _ h0) not_lt_bot
  · refine ⟨i, a, hget, hfm, hval, ?_, hlater⟩
    intro j v' hj
    have hmem : v' ∈ ab_values g player_id (depth - 1) state (g.actions state) ⊥ :=
      List.get?_mem hj
    have hle := foldl_vmax_ge_mem
      (ab_values g player_id (depth - 1) state (g.actions state) ⊥) ⊥ v' hmem
    show v' ≤ (ab_loop g player_id (depth - 1) state (g.actions state) ⊥ ⊥ none).1
    rw [ab_loop_fst_values]
    exact hle

/-- C6, witness: the spec's depth-1 scenario with utilities `+1, -1, +1`.
The engine returns the third action (the last maximal one), whose utility
is `+1`. -/
theorem claim_C6_witness :
    cg6.actions 0 ≠ [] ∧
    (∃ i a, (cg6.actions 0).get? i = some a ∧
      alpha_beta_search cg6 0 0 1 = some a ∧
      (ab_values cg6 0 0 0 (cg6.actions 0) ⊥).get? i =
        some (alpha_beta_core cg6 0 0 1).1 ∧
      (∀ j v', (ab_values cg6 0 0 0 (cg6.actions 0) ⊥).get? j = some v' →
        v' ≤ (alpha_beta_core cg6 0 0 1).1) ∧
      (∀ j v', i < j → (ab_values cg6 0 0 0 (cg6.actions 0) ⊥).get? j = some v' →
        v' < (alpha_beta_core cg6 0 0 1).1)) ∧
    alpha_beta_search cg6 0 0 1 = some 3 ∧
    cg6.utility (cg6.result 0 3) 0 = Val.fin 1 :=
  ⟨by decide, claim_C6 cg6 0 0 1 (by decide), by decide, by decide⟩

/-- C9.  The static evaluation is antisymmetric in the two player
identities. -/
theorem claim_C9 (g : GameOps σ α β) (state : σ) (p : Nat) (hp : p ≤ 1)
    (_hterm : g.terminal_test state = false) :
    score g state p = -score g state (1 - p) := by
  rcases Nat.le_one_iff_eq_zero_or_eq_one.mp hp with h | h <;> subst h <;>
    simp [score]

/-- C9, witness at `cg6`'s root state with `p = 0`. -/
theorem claim_C9_witness :
    ((0 : Nat) ≤ 1 ∧ cg6.terminal_test 0 = false) ∧
    score cg6 0 0 = -score cg6 0 (1 - 0) :=
  ⟨⟨by decide, by decide⟩, claim_C9 cg6 0 0 (by decide) (by decide)⟩

/-- C10.  With no legal actions the root loop never runs and the
initialised `best_move = None` is returned, at every depth. -/
theorem claim_C10 (g : GameOps σ α β) (player_id : Nat) (state : σ)
    (depth : Nat) (h : g.actions state = []) :
    alpha_beta_search g player_id state depth = none := by
  unfold alpha_beta_search alpha_beta_core
  rw [h]
  rfl

/-- C10, witness: terminal state `1` of `cg1` has no legal actions. -/
theorem claim_C10_witness :
    cg1.actions 1 = [] ∧ alpha_beta_search cg1 0 1 3 = none :=
  ⟨by decide, claim_C10 cg1 0 1 3 (by decide)⟩

/-! ## Claims about the MCTS engine: selection -/

theorem randomChoice_mem (k : Nat) (l : List α) (a : α)
    (h : randomChoice k l = some a) : a ∈ l := List.get?_mem h

theorem randomChoice_isSome (k : Nat) (l : List α) (hne : l ≠ []) :
    ∃ a ∈ l, randomChoice k l = some a := by
  have hlen : 0 < l.length := List.length_pos.mpr hne
  have hmod : k % l.length < l.length := Nat.mod_lt k hlen
  exact ⟨l.get ⟨k % l.length, hmod⟩, List.get_mem l _ _, List.get?_eq_get hmod⟩

theorem UTCNode.visits_mk (v : Nat) (r : ℝ) (s : σ) (cs : List (UTCNode σ α))
    (ca : List α) : (UTCNode.mk v r s cs ca).visits = v := rfl

theorem UTCNode.reward_mk (v : Nat) (r : ℝ) (s : σ) (cs : List (UTCNode σ α))
    (ca : List α) : (UTCNode.mk v r s cs ca).reward = r := rfl

theorem UTCNode.state_mk (v : Nat) (r : ℝ) (s : σ) (cs : List (UTCNode σ α))
    (ca : List α) : (UTCNode.mk v r s cs ca).state = s := rfl

theorem UTCNode.children_mk (v : Nat) (r : ℝ) (s : σ) (cs : List (UTCNode σ α))
    (ca : List α) : (UTCNode.mk v r s cs ca).children = cs := rfl

theorem UTCNode.children_actions_mk (v : Nat) (r : ℝ) (s : σ)
    (cs : List (UTCNode σ α)) (ca : List α) :
    (UTCNode.mk v r s cs ca).children_actions = ca := rfl

theorem UTCNode.setChild_fields (t : UTCNode σ α) (i : Nat) (c : UTCNode σ α) :
    (t.setChild i c).state = t.state ∧
    (t.setChild i c).children_actions = t.children_actions ∧
    (t.setChild i c).children = t.children.set i c ∧
    (t.setChild i c).visits = t.visits ∧ (t.setChild i c).reward = t.reward := by
  cases t
  exact ⟨rfl, rfl, rfl, rfl, rfl⟩

theorem UTCNode.add_child_fields (t : UTCNode σ α) (s' : σ) (a : α) :
    (t.add_child s' a).state = t.state ∧
    (t.add_child s' a).children_actions = t.children_actions ++ [a] ∧
    (t.add_child s' a).children = t.children ++ [UTCNode.new s'] ∧
    (t.add_child s' a).visits = t.visits ∧ (t.add_child s' a).reward = t.reward := by
  cases t
  exact ⟨rfl, rfl, rfl, rfl, rfl⟩

/-- What the fold behind Python's `max(children, key=ucb)` guarantees:
the result is the carried best or a listed element at its computed
position, its key dominates every key seen, and keys strictly before the
selected position are strictly smaller (first-maximal selection). -/
theorem best_child_aux_spec (pv : Nat) :
    ∀ (l : List (UTCNode σ α)) (b : Nat × UTCNode σ α) (i : Nat),
      (∀ c ∈ l, ucb_score pv c ≤ ucb_score pv (best_child_aux pv l b i).2) ∧
      ucb_score pv b.2 ≤ ucb_score pv (best_child_aux pv l b i).2 ∧
      (best_child_aux pv l b i = b ∨
        ∃ k c, l.get? k = some c ∧ best_child_aux pv l b i = (i + k, c) ∧
          ucb_score pv b.2 < ucb_score pv c ∧
          ∀ j c', j < k → l.get? j = some c' → ucb_score pv c' < ucb_score pv c) := by
  intro l
  induction l with
  | nil =>
    intro b i
    exact ⟨fun c hc => absurd hc (List.not_mem_nil c), le_refl _, Or.inl rfl⟩
  | cons c t ih =>
    intro b i
    simp only [best_child_aux]
    by_cases hbc : ucb_score pv b.2 < ucb_score pv c
    · rw [if_pos hbc]
      obtain ⟨ih1, ih2, ih3⟩ := ih (i, c) (i + 1)
      refine ⟨?_, le_trans (le_of_lt hbc) ih2, ?_⟩
      · intro x hx
        rcases List.mem_cons.mp hx with h | h
        · exact h ▸ ih2
        · exact ih1 x h
      · rcases ih3 with h | ⟨k', c', hget, heq, hlt, hstrict⟩
        · refine Or.inr ⟨0, c, rfl, ?_, hbc, ?_⟩
          · rw [h, Nat.add_zero]
          · intro j c' hj
            exact absurd hj (Nat.not_lt_zero j)
        · refine Or.inr ⟨k' + 1, c', ?_, ?_, lt_trans hbc hlt, ?_⟩
          · rw [List.get?_cons_succ]; exact hget
          · rw [show i + (k' + 1) = i + 1 + k' by omega]; exact heq
          · intro j c'' hj hjc
            cases j with
            | zero =>
              rw [List.get?_cons_zero] at hjc
              cases hjc
              exact hlt
            | succ j' =>
              rw [List.get?_cons_succ] at hjc
              exact hstrict j' c'' (Nat.lt_of_succ_lt_succ hj) hjc
    · rw [if_neg hbc]
      obtain ⟨ih1, ih2, ih3⟩ := ih b (i + 1)
      refine ⟨?_, ih2, ?_⟩
      · intro x hx
        rcases List.mem_cons.mp hx with h | h
        · exact h ▸ le_trans (le_of_not_lt hbc) ih2
        · exact ih1 x h
      · rcases ih3 with h | ⟨k', c', hget, heq, hlt, hstrict⟩
        · exact Or.inl h
        · refine Or.inr ⟨k' + 1, c', ?_, ?_, hlt, ?_⟩
          · rw [List.get?_cons_succ]; exact hget
          · rw [show i + (k' + 1) = i + 1 + k' by omega]; exact heq
          · intro j c'' hj hjc
            cases j with
            | zero =>
              rw [List.get?_cons_zero] at hjc
              cases hjc
              exact lt_of_le_of_lt (le_of_not_lt hbc) hlt
            | succ j' =>
              rw [List.get?_cons_succ] at hjc
              exact hstrict j' c'' (Nat.lt_of_succ_lt_succ hj) hjc

/-- The decision-time selection of line 81: the chosen index addresses the
first child maximising the full UCB key (exploitation plus `sqrt(2)` times
exploration), and the returned action is the parallel entry of
`children_actions`. -/
theorem mcts_final_choice_spec (t : UTCNode σ α) (hne : t.children ≠ [])
    (hlen : t.children.length = t.children_actions.length) :
    ∃ i c a, best_child_idx t = some i ∧ t.children.get? i = some c ∧
      t.children_actions.get? i = some a ∧ mcts_final_choice t = some a ∧
      (∀ c' ∈ t.children, ucb_score t.visits c' ≤ ucb_score t.visits c) ∧
      (∀ j c', j < i → t.children.get? j = some c' →
        ucb_score t.visits c' < ucb_score t.visits c) := by
  obtain ⟨c0, rest, he⟩ := List.exists_cons_of_ne_nil hne
  obtain ⟨sp1, sp2, sp3⟩ := best_child_aux_spec t.visits rest (0, c0) 1
  have hidx : best_child_idx t = some (best_child_aux t.visits rest (0, c0) 1).1 := by
    unfold best_child_idx
    rw [he]
  rcases sp3 with h | ⟨k, c, hget, heq, hlt, hstrict⟩
  · -- the head child is kept
    have hi : (best_child_aux t.visits rest (0, c0) 1).1 = 0 := by rw [h]
    have hc : (best_child_aux t.visits rest (0, c0) 1).2 = c0 := by rw [h]
    have hlt0 : 0 < t.children_actions.length := by
      rw [← hlen, he]; exact Nat.succ_pos _
    obtain ⟨a, ha⟩ : ∃ a, t.children_actions.get? 0 = some a := by
      cases hca : t.children_actions.get? 0 with
      | none => exact absurd (List.get?_eq_none.mp hca) (not_le_of_lt hlt0)
      | some a => exact ⟨a, rfl⟩
    refine ⟨0, c0, a, hi ▸ hidx, by rw [he]; rfl, ha, ?_, ?_, ?_⟩
    · unfold mcts_final_choice
      rw [hidx, hi]
      exact ha
    · intro c' hc'
      rw [he] at hc'
      rcases List.mem_cons.mp hc' with h' | h'
      · exact h' ▸ le_refl _
      · exact hc ▸ sp1 c' h'
    · intro j c' hj
      exact absurd hj (Nat.not_lt_zero j)
  · -- a later child replaced the head
    have hi : (best_child_aux t.visits rest (0, c0) 1).1 = 1 + k := by rw [heq]
    have hc : (best_child_aux t.visits rest (0, c0) 1).2 = c := by rw [heq]
    have hkl : 1 + k < t.children.length := by
      rw [he]
      simp only [List.length_cons]
      obtain ⟨hk, _⟩ := List.get?_eq_some.mp hget
      omega
    have hlt0 : 1 + k < t.children_actions.length := hlen ▸ hkl
    obtain ⟨a, ha⟩ : ∃ a, t.children_actions.get? (1 + k) = some a := by
      cases hca : t.children_actions.get? (1 + k) with
      | none => exact absurd (List.get?_eq_none.mp hca) (not_le_of_lt hlt0)
      | some a => exact ⟨a, rfl⟩
    refine ⟨1 + k, c, a, hi ▸ hidx, ?_, ha, ?_, ?_, ?_⟩
    · rw [he, show (1 + k) = k + 1 by omega, List.get?_cons_succ]
      exact hget
    · unfold mcts_final_choice
      rw [hidx, hi]
      exact ha
    · intro c' hc'
      rw [he] at hc'
      rcases List.mem_cons.mp hc' with h' | h'
      · exact h' ▸ le_of_lt hlt
      · exact hc ▸ sp1 c' h'
    · intro j c' hj hjc
      rw [he] at hjc
      cases j with
      | zero =>
        rw [List.get?_cons_zero] at hjc
        cases hjc
        exact hlt
      | succ j' =>
        rw [List.get?_cons_succ] at hjc
        exact hstrict j' c' (by omega) hjc

/-- C3, amended.  At decision time the engine selects with the full UCB
comparator — exploitation `reward/visits` plus the `sqrt(2) * sqrt(log
(parent.visits)/visits)` exploration bonus — keeping the first maximal
child, and returns the parallel `children_actions` entry. -/
theorem claim_C3_amended (t : UTCNode σ α) (hne : t.children ≠ [])
    (hlen : t.children.length = t.children_actions.length) :
    ∃ i c a, best_child_idx t = some i ∧ t.children.get? i = some c ∧
      t.children_actions.get? i = some a ∧ mcts_final_choice t = some a ∧
      (∀ c' ∈ t.children, ucb_score t.visits c' ≤ ucb_score t.visits c) ∧
      (∀ j c', j < i → t.children.get? j = some c' →
        ucb_score t.visits c' < ucb_score t.visits c) :=
  mcts_final_choice_spec t hne hlen

/-- C3, witness for the amended theorem at the concrete root `croot`. -/
theorem claim_C3_witness :
    (croot.children ≠ [] ∧ croot.children.length = croot.children_actions.length) ∧
    (∃ i c a, best_child_idx croot = some i ∧ croot.children.get? i = some c ∧
      croot.children_actions.get? i = some a ∧ mcts_final_choice croot = some a ∧
      (∀ c' ∈ croot.children, ucb_score croot.visits c' ≤ ucb_score croot.visits c) ∧
      (∀ j c', j < i → croot.children.get? j = some c' →
        ucb_score croot.visits c' < ucb_score croot.visits c)) :=
  ⟨⟨List.cons_ne_nil _ _, rfl⟩, claim_C3_amended croot (List.cons_ne_nil _ _) rfl⟩

/-- The UCB inequality behind the C3 counterexample: at the root `croot`
(11 visits), child `cb` (2 visits, mean reward 0) outscores child `ca`
(8 visits, mean reward 1/2) once the exploration bonus is added, because
`4/8 + sqrt(2)*sqrt(log 11 / 8) = 1/2 + sqrt(log 11)/2 < sqrt(log 11)`. -/
theorem croot_ucb_flip : ucb_score 11 ca < ucb_score 11 cb := by
  have hL : (1 : ℝ) < Real.log 11 := by
    rw [Real.lt_log_iff_exp_lt (by norm_num : (0:ℝ) < 11)]
    calc Real.exp 1 < 2.7182818286 := Real.exp_one_lt_d9
      _ < 11 := by norm_num
  have hL0 : (0 : ℝ) ≤ Real.log 11 := le_of_lt (lt_trans one_pos hL)
  have hsl : (1 : ℝ) < Real.sqrt (Real.log 11) := by
    calc (1 : ℝ) = Real.sqrt 1 := (Real.sqrt_one).symm
      _ < Real.sqrt (Real.log 11) := Real.sqrt_lt_sqrt (by norm_num) hL
  have h4 : Real.sqrt 4 = 2 := by
    rw [show (4 : ℝ) = 2 ^ 2 by norm_num, Real.sqrt_sq (by norm_num : (0:ℝ) ≤ 2)]
  have hca : Real.sqrt 2 * Real.sqrt (Real.log 11 / 8) =
      Real.sqrt (Real.log 11) / 2 := by
    rw [← Real.sqrt_mul (by norm_num : (0:ℝ) ≤ 2),
      show (2 : ℝ) * (Real.log 11 / 8) = Real.log 11 / 4 by ring,
      Real.sqrt_div hL0, h4]
  have hcb : Real.sqrt 2 * Real.sqrt (Real.log 11 / 2) =
      Real.sqrt (Real.log 11) := by
    rw [← Real.sqrt_mul (by norm_num : (0:ℝ) ≤ 2),
      show (2 : ℝ) * (Real.log 11 / 2) = Real.log 11 by ring]
  show exploitation ca + Real.sqrt 2 * exploration 11 ca <
    exploitation cb + Real.sqrt 2 * exploration 11 cb
  simp only [exploitation, exploration, ca, cb, UTCNode.reward_mk,
    UTCNode.visits_mk]
  push_cast
  rw [hca, hcb]
  linarith

/-- C3, counterexample.  At `croot` the code's decision-time selection
(line 81, via `best_child`) returns action `20`, while the child with the
strictly highest exploitation value `reward/visits` is the one reached by
action `10`: the final choice is not made by the exploitation-only
criterion. -/
theorem claim_C3_counterexample :
    mcts_final_choice croot = some 20 ∧
    exploit_only_choice croot = some 10 ∧
    exploitation cb < exploitation ca ∧
    mcts_final_choice croot ≠ exploit_only_choice croot := by
  have hexp : exploitation cb < exploitation ca := by
    simp only [exploitation, ca, cb, UTCNode.reward_mk, UTCNode.visits_mk]
    norm_num
  have h1 : mcts_final_choice croot = some 20 := by
    unfold mcts_final_choice best_child_idx croot
    simp only [UTCNode.children_mk, UTCNode.visits_mk, best_child_aux]
    rw [if_pos croot_ucb_flip]
    rfl
  have h2 : exploit_only_choice croot = some 10 := by
    unfold exploit_only_choice croot
    simp only [UTCNode.children_mk, exploit_only_aux]
    rw [if_neg (not_lt_of_lt hexp)]
    rfl
  refine ⟨h1, h2, hexp, ?_⟩
  rw [h1, h2]
  simp

/-! ## Claims about backpropagation -/

/-- Full effect of one `backprop(leaf, r)` call, stated over the
root-to-leaf index path `p`: the reward handed back for the (null) parent
of the root is `(-1)^(|p|+1) * r`; every node at a prefix `q` of `p`
(distance `|p| - |q|` from the leaf) gains exactly one visit and
`(-1)^(|p|-|q|) * r` reward, keeping its state, actions and child count;
every node not on the path is untouched. -/
theorem backprop_spec :
    ∀ (p : List Nat) (t : UTCNode σ α) (r : ℝ) (t' : UTCNode σ α) (rp : ℝ),
      backprop t p r = some (t', rp) →
      rp = (-1) ^ (p.length + 1) * r ∧
      (∀ q : List Nat, (∃ q', q ++ q' = p) → ∀ n, subtreeAt t q = some n →
        ∃ n', subtreeAt t' q = some n' ∧ n'.visits = n.visits + 1 ∧
          n'.reward = n.reward + (-1) ^ (p.length - q.length) * r ∧
          n'.state = n.state ∧ n'.children_actions = n.children_actions ∧
          n'.children.length = n.children.length) ∧
      (∀ q : List Nat, (¬ ∃ q', q ++ q' = p) → subtreeAt t' q = subtreeAt t q) := by
  intro p
  induction p with
  | nil =>
    intro t r t' rp h
    cases t with
    | mk v w s cs ca =>
      simp only [backprop] at h
      obtain ⟨ht, hr⟩ := Prod.mk.injEq .. ▸ Option.some.inj h
      subst ht
      subst hr
      refine ⟨by simp, ?_, ?_⟩
      · intro q hq n hn
        obtain ⟨q', hq'⟩ := hq
        have hqnil : q = [] := (List.append_eq_nil.mp hq').1
        subst hqnil
        have hn' := Option.some.inj hn
        subst hn'
        refine ⟨UTCNode.mk (v + 1) (w + r) s cs ca, rfl, rfl, ?_, rfl, rfl, rfl⟩
        show w + r = w + (-1) ^ (0 - 0 : Nat) * r
        norm_num
      · intro q hq
        cases q with
        | nil => exact absurd ⟨[], rfl⟩ hq
        | cons j q'' => rfl
  | cons i p' ih =>
    intro t r t' rp h
    cases t with
    | mk v w s cs ca =>
      simp only [backprop] at h
      cases hc : cs.get? i with
      | none =>
        simp only [hc] at h
        exact Option.noConfusion h
      | some c =>
        simp only [hc] at h
        cases hb : backprop c p' r with
        | none =>
          simp only [hb] at h
          exact Option.noConfusion h
        | some pr =>
          obtain ⟨c', rp'⟩ := pr
          simp only [hb] at h
          obtain ⟨ht, hr⟩ := Prod.mk.injEq .. ▸ Option.some.inj h
          subst ht
          subst hr
          obtain ⟨hrp', hpre, hnon⟩ := ih c r c' rp' hb
          have hilen : i < cs.length := (List.get?_eq_some.mp hc).1
          refine ⟨?_, ?_, ?_⟩
          · rw [hrp']
            simp only [List.length_cons]
            ring
          · intro q hq n hn
            obtain ⟨q', hq'⟩ := hq
            cases q with
            | nil =>
              have hn' := Option.some.inj hn
              subst hn'
              refine ⟨UTCNode.mk (v + 1) (w + rp') s (cs.set i c') ca, rfl, rfl,
                ?_, rfl, rfl, ?_⟩
              · show w + rp' = w + (-1) ^ ((i :: p').length - 0) * r
                rw [hrp']
                simp only [List.length_cons, Nat.sub_zero]
              · show (cs.set i c').length = cs.length
                exact List.length_set cs i c'
            | cons j q'' =>
              rw [List.cons_append] at hq'
              injection hq' with hj hq''
              subst hj
              have hnsub : subtreeAt c q'' = some n := by
                simp only [subtreeAt, UTCNode.children_mk, hc] at hn
                exact hn
              obtain ⟨n', hn', hv, hw, hs, hca, hcl⟩ :=
                hpre q'' ⟨q', hq''⟩ n hnsub
              refine ⟨n', ?_, hv, ?_, hs, hca, hcl⟩
              · simp only [subtreeAt, UTCNode.children_mk,
                  List.get?_set_eq_of_lt c' hilen]
                exact hn'
              · rw [hw]
                have hlen : (j :: p').length - (j :: q'').length =
                    p'.length - q''.length := by
                  simp only [List.length_cons]
                  omega
                rw [hlen]
          · intro q hq
            cases q with
            | nil => exact absurd ⟨i :: p', rfl⟩ hq
            | cons j q'' =>
              by_cases hj : j = i
              · subst hj
                have hq2 : ¬ ∃ q', q'' ++ q' = p' := by
                  intro ⟨q', hq'⟩
                  exact hq ⟨q', by rw [List.cons_append, hq']⟩
                have := hnon q'' hq2
                simp only [subtreeAt, UTCNode.children_mk,
                  List.get?_set_eq_of_lt c' hilen, hc]
                exact this
              · simp only [subtreeAt, UTCNode.children_mk,
                  List.get?_set_ne c' cs (Ne.symm hj)]

/-- C5.  One `backprop(leaf, r)` call adds one visit to every node on the
leaf-to-root path and adds `(-1)^k * r` to the reward of the node at
distance `k` from the leaf; every node off the path is unchanged, and the
walk stops at the root, handing the (unused) reward `(-1)^(|p|+1) * r` to
the null parent. -/
theorem claim_C5 (t : UTCNode σ α) (p : List Nat) (r : ℝ) (t' : UTCNode σ α)
    (rp : ℝ) (h : backprop t p r = some (t', rp)) :
    (∀ q : List Nat, (∃ q', q ++ q' = p) → ∀ n, subtreeAt t q = some n →
      ∃ n', subtreeAt t' q = some n' ∧ n'.visits = n.visits + 1 ∧
        n'.reward = n.reward + (-1) ^ (p.length - q.length) * r ∧
        n'.state = n.state ∧ n'.children_actions = n.children_actions ∧
        n'.children.length = n.children.length) ∧
    (∀ q : List Nat, (¬ ∃ q', q ++ q' = p) → subtreeAt t' q = subtreeAt t q) ∧
    rp = (-1) ^ (p.length + 1) * r := by
  obtain ⟨h1, h2, h3⟩ := backprop_spec p t r t' rp h
  exact ⟨h2, h3, h1⟩

/-- C5, witness: backpropagating reward `1` along the path to `croot`'s
first child adds a visit to the child and the root, adds `+1` at the child
(distance 0) and `-1` at the root (distance 1), leaves the sibling
untouched, and hands `-(-1)` back for the null parent. -/
theorem claim_C5_witness :
    backprop croot [0] (1 : ℝ) =
      some (UTCNode.mk 12 (-2 + -1) 0 [UTCNode.mk 9 (4 + 1) 1 [] [], cb] [10, 20],
        -(-1)) ∧
    ((∀ q : List Nat, (∃ q', q ++ q' = [0]) → ∀ n, subtreeAt croot q = some n →
        ∃ n', subtreeAt (UTCNode.mk 12 (-2 + -1) 0
            [UTCNode.mk 9 (4 + 1) 1 [] [], cb] [10, 20]) q = some n' ∧
          n'.visits = n.visits + 1 ∧
          n'.reward = n.reward + (-1) ^ (([0] : List Nat).length - q.length) * (1 : ℝ) ∧
          n'.state = n.state ∧ n'.children_actions = n.children_actions ∧
          n'.children.length = n.children.length) ∧
      (∀ q : List Nat, (¬ ∃ q', q ++ q' = [0]) →
        subtreeAt (UTCNode.mk 12 (-2 + -1) 0
          [UTCNode.mk 9 (4 + 1) 1 [] [], cb] [10, 20]) q = subtreeAt croot q) ∧
      -(-1) = (-1) ^ (([0] : List Nat).length + 1) * (1 : ℝ)) := by
  have h : backprop croot [0] (1 : ℝ) =
      some (UTCNode.mk 12 (-2 + -1) 0 [UTCNode.mk 9 (4 + 1) 1 [] [], cb] [10, 20],
        -(-1)) := rfl
  exact ⟨h, claim_C5 croot [0] 1 _ _ h⟩

/-! ## Claims about expansion bookkeeping -/

/-- C7.  `is_expanded` is exactly the count comparison
`len(children_actions) == len(state.actions())`; a successful `expand`
appends an action drawn from the untried ones (never a duplicate), and
under the invariant that the recorded actions are distinct legal actions,
the child count stays bounded by the legal-action count. -/
theorem claim_C7 (g : GameOps σ α β) [DecidableEq α] (t : UTCNode σ α) :
    (t.is_expanded g = true ↔
      t.children_actions.length = (g.actions t.state).length) ∧
    (∀ rng t' i leaf rng', expand g t rng = some (t', i, leaf, rng') →
      ∃ a, a ∈ g.actions t.state ∧ a ∉ t.children_actions ∧
        t'.children_actions = t.children_actions ++ [a] ∧
        t'.children.length = t.children.length + 1 ∧
        (t.children_actions.Nodup →
          (∀ x ∈ t.children_actions, x ∈ g.actions t.state) →
          t'.children_actions.Nodup ∧
          t'.children_actions.length ≤ (g.actions t.state).length)) := by
  constructor
  · simp [UTCNode.is_expanded]
  · intro rng t' i leaf rng' h
    unfold expand at h
    cases hr : randomChoice (rngDraw rng).1
        ((g.actions t.state).filter (fun a => a ∉ t.children_actions)) with
    | none => rw [hr] at h; exact Option.noConfusion h
    | some a =>
      rw [hr] at h
      have hmem := randomChoice_mem _ _ _ hr
      rw [List.mem_filter] at hmem
      obtain ⟨hact, hnot⟩ := hmem
      have hnotin : a ∉ t.children_actions := by
        simpa using hnot
      have ht' : t' = t.add_child (g.result t.state a) a := by
        have h4 := Option.some.inj h
        exact (congrArg Prod.fst h4).symm
      obtain ⟨_, hca, hcs, _, _⟩ := UTCNode.add_child_fields t (g.result t.state a) a
      refine ⟨a, hact, hnotin, ?_, ?_, ?_⟩
      · rw [ht', hca]
      · rw [ht', hcs, List.length_append, List.length_singleton]
      · intro hnd hsub
        constructor
        · rw [ht', hca]
          simp [List.nodup_append, hnd, hnotin]
        · rw [ht', hca]
          have hnd' : (t.children_actions ++ [a]).Nodup := by
            simp [List.nodup_append, hnd, hnotin]
          have hsub' : t.children_actions ++ [a] ⊆ g.actions t.state := by
            intro x hx
            rcases List.mem_append.mp hx with hx | hx
            · exact hsub x hx
            · rw [List.mem_singleton.mp hx]; exact hact
          exact (hnd'.subperm hsub').length_le

/-- C7, witness: expanding the fresh root of `cg1` adds the single legal
action `7`, which was untried; counts go from `0` to `1 ≤ 1`. -/
theorem claim_C7_witness :
    expand cg1 (UTCNode.new 0) [] =
      some (UTCNode.mk 1 0 0 [UTCNode.new 1] [7], 0, 1, []) ∧
    (∃ a, a ∈ cg1.actions (UTCNode.new 0 : UTCNode Nat Nat).state ∧
      a ∉ (UTCNode.new 0 : UTCNode Nat Nat).children_actions ∧
      (UTCNode.mk 1 0 0 [UTCNode.new 1] [7] : UTCNode Nat Nat).children_actions =
        (UTCNode.new 0 : UTCNode Nat Nat).children_actions ++ [a] ∧
      (UTCNode.mk 1 0 0 [UTCNode.new 1] [7] : UTCNode Nat Nat).children.length =
        (UTCNode.new 0 : UTCNode Nat Nat).children.length + 1 ∧
      ((UTCNode.new 0 : UTCNode Nat Nat).children_actions.Nodup →
        (∀ x ∈ (UTCNode.new 0 : UTCNode Nat Nat).children_actions,
          x ∈ cg1.actions (UTCNode.new 0 : UTCNode Nat Nat).state) →
        (UTCNode.mk 1 0 0 [UTCNode.new 1] [7] : UTCNode Nat Nat).children_actions.Nodup ∧
        (UTCNode.mk 1 0 0 [UTCNode.new 1] [7] : UTCNode Nat Nat).children_actions.length ≤
          (cg1.actions (UTCNode.new 0 : UTCNode Nat Nat).state).length)) :=
  ⟨rfl, (claim_C7 cg1 (UTCNode.new 0)).2 [] _ 0 1 [] rfl⟩

/-! ## Claims about visit counts -/

/-- `add_child` keeps every existing node's visits and introduces only a
fresh node with `visits = 1`. -/
theorem add_child_visits_pos (t : UTCNode σ α) (s' : σ) (a : α)
    (h : ∀ q n, subtreeAt t q = some n → 1 ≤ n.visits) :
    ∀ q n', subtreeAt (t.add_child s' a) q = some n' → 1 ≤ n'.visits := by
  cases t with
  | mk v w s cs ca =>
    intro q n' hq
    cases q with
    | nil =>
      have hn := Option.some.inj hq
      subst hn
      exact h [] (UTCNode.mk v w s cs ca) rfl
    | cons i q' =>
      simp only [UTCNode.add_child, subtreeAt, UTCNode.children_mk] at hq
      by_cases hi : i < cs.length
      · rw [List.get?_append hi] at hq
        cases hc : cs.get? i with
        | none => rw [hc] at hq; exact Option.noConfusion hq
        | some c =>
          simp only [hc] at hq
          exact h (i :: q') n'
            (by simp only [subtreeAt, UTCNode.children_mk, hc]; exact hq)
      · rw [List.get?_append_right (le_of_not_lt hi)] at hq
        cases hd : i - cs.length with
        | zero =>
          simp only [hd, List.get?_cons_zero] at hq
          cases q' with
          | nil =>
            have hn := Option.some.inj hq
            subst hn
            exact le_refl 1
          | cons j q'' =>
            simp only [subtreeAt, UTCNode.new, UTCNode.children_mk,
              List.get?_nil] at hq
            exact Option.noConfusion hq
        | succ k =>
          simp only [hd, List.get?_cons_succ, List.get?_nil] at hq
          exact Option.noConfusion hq

/-- A successful backpropagation found a node at every prefix of its
path. -/
theorem backprop_dom :
    ∀ (p : List Nat) (t : UTCNode σ α) (r : ℝ) (t' : UTCNode σ α) (rp : ℝ),
      backprop t p r = some (t', rp) →
      ∀ q : List Nat, (∃ q', q ++ q' = p) → ∃ n, subtreeAt t q = some n := by
  intro p
  induction p with
  | nil =>
    intro t r t' rp _ q hq
    obtain ⟨q', hq'⟩ := hq
    have hqnil : q = [] := (List.append_eq_nil.mp hq').1
    subst hqnil
    exact ⟨t, rfl⟩
  | cons i p' ih =>
    intro t r t' rp h q hq
    cases t with
    | mk v w s cs ca =>
      simp only [backprop] at h
      cases hc : cs.get? i with
      | none =>
        simp only [hc] at h
        exact Option.noConfusion h
      | some c =>
        simp only [hc] at h
        cases hb : backprop c p' r with
        | none =>
          simp only [hb] at h
          exact Option.noConfusion h
        | some pr =>
          obtain ⟨q', hq'⟩ := hq
          cases q with
          | nil => exact ⟨UTCNode.mk v w s cs ca, rfl⟩
          | cons j q'' =>
            rw [List.cons_append] at hq'
            injection hq' with hj hq''
            subst hj
            obtain ⟨n, hn⟩ := ih c r pr.1 pr.2 hb q'' ⟨q', hq''⟩
            exact ⟨n, by simp only [subtreeAt, UTCNode.children_mk, hc]; exact hn⟩

/-- Backpropagation never decreases a visit count and preserves
positivity of all visit counts. -/
theorem backprop_visits (t : UTCNode σ α) (p : List Nat) (r : ℝ)
    (t' : UTCNode σ α) (rp : ℝ) (h : backprop t p r = some (t', rp)) :
    (∀ q n n', subtreeAt t q = some n → subtreeAt t' q = some n' →
      n.visits ≤ n'.visits) ∧
    ((∀ q n, subtreeAt t q = some n → 1 ≤ n.visits) →
      ∀ q n', subtreeAt t' q = some n' → 1 ≤ n'.visits) := by
  obtain ⟨_, hpre, hnon⟩ := backprop_spec p t r t' rp h
  constructor
  · intro q n n' hn hn'
    by_cases hq : ∃ q', q ++ q' = p
    · obtain ⟨n'', hn'', hv, _⟩ := hpre q hq n hn
      have he : n' = n'' := Option.some.inj (hn'.symm.trans hn'')
      rw [he, hv]
      exact Nat.le_succ _
    · rw [hnon q hq] at hn'
      have he : n = n' := Option.some.inj (hn.symm.trans hn')
      rw [he]
  · intro hpos q n' hn'
    by_cases hq : ∃ q', q ++ q' = p
    · obtain ⟨n, hn⟩ := backprop_dom p t r t' rp h q hq
      obtain ⟨n'', hn'', hv, _⟩ := hpre q hq n hn
      have he : n' = n'' := Option.some.inj (hn'.symm.trans hn'')
      rw [he, hv]
      exact Nat.succ_le_succ (Nat.zero_le _)
    · rw [hnon q hq] at hn'
      exact hpos q n' hn'

/-- C8.  Every node is created with `visits = 1`; expansion and
backpropagation never decrease any visit count (backpropagation only
increments, expansion only adds a fresh `visits = 1` node); consequently
every node of a well-formed tree has `visits ≥ 1`, so the `reward/visits`
and `sqrt(log(parent.visits)/visits)` computations never divide by zero
and never take the logarithm of zero. -/
theorem claim_C8 (g : GameOps σ α β) [DecidableEq α] (s : σ) (t : UTCNode σ α) :
    (UTCNode.new s : UTCNode σ β).visits = 1 ∧
    (∀ rng t' i leaf rng', expand g t rng = some (t', i, leaf, rng') →
      (∀ q n, subtreeAt t q = some n → 1 ≤ n.visits) →
      ∀ q n', subtreeAt t' q = some n' → 1 ≤ n'.visits) ∧
    (∀ p r t' rp, backprop t p r = some (t', rp) →
      (∀ q n n', subtreeAt t q = some n → subtreeAt t' q = some n' →
        n.visits ≤ n'.visits) ∧
      ((∀ q n, subtreeAt t q = some n → 1 ≤ n.visits) →
        ∀ q n', subtreeAt t' q = some n' → 1 ≤ n'.visits)) ∧
    ((∀ q n, subtreeAt t q = some n → 1 ≤ n.visits) →
      ∀ q n, subtreeAt t q = some n →
        ((n.visits : ℝ) ≠ 0 ∧ (1 : ℝ) ≤ (n.visits : ℝ))) := by
  refine ⟨rfl, ?_, ?_, ?_⟩
  · intro rng t' i leaf rng' h hpos
    unfold expand at h
    cases hr : randomChoice (rngDraw rng).1
        ((g.actions t.state).filter (fun a => a ∉ t.children_actions)) with
    | none => rw [hr] at h; exact Option.noConfusion h
    | some a =>
      rw [hr] at h
      have ht' : t' = t.add_child (g.result t.state a) a := by
        have h4 := Option.some.inj h
        exact (congrArg Prod.fst h4).symm
      rw [ht']
      exact add_child_visits_pos t (g.result t.state a) a hpos
  · intro p r t' rp h
    exact backprop_visits t p r t' rp h
  · intro hpos q n hn
    have h1 := hpos q n hn
    constructor
    · exact_mod_cast Nat.pos_iff_ne_zero.mp h1
    · exact_mod_cast h1

/-- C8, witness: a freshly created node has one visit, and the scored
quantities at it are well defined. -/
theorem claim_C8_witness :
    (UTCNode.new (0 : Nat) : UTCNode Nat Nat).visits = 1 ∧
    (((UTCNode.new (0 : Nat) : UTCNode Nat Nat).visits : ℝ) ≠ 0 ∧
      (1 : ℝ) ≤ ((UTCNode.new (0 : Nat) : UTCNode Nat Nat).visits : ℝ)) := by
  have hpos : ∀ q n, subtreeAt (UTCNode.new (0 : Nat) : UTCNode Nat Nat) q =
      some n → 1 ≤ n.visits := by
    intro q n hq
    cases q with
    | nil =>
      have hn := Option.some.inj hq
      subst hn
      exact le_refl 1
    | cons i q' =>
      simp only [subtreeAt, UTCNode.new, UTCNode.children_mk, List.get?_nil] at hq
      exact Option.noConfusion hq
  exact ⟨(claim_C8 cg1 0 (UTCNode.new 0)).1,
    (claim_C8 cg1 0 (UTCNode.new 0)).2.2.2 hpos [] (UTCNode.new 0) rfl⟩

/-! ## Claims about the MCTS search pipeline -/

/-- Effect of a successful `expand` on the expanded node. -/
theorem expand_effect (g : GameOps σ α β) [DecidableEq α] (t : UTCNode σ α)
    (rng : List Nat) (t' : UTCNode σ α) (i : Nat) (leaf : σ) (rng' : List Nat)
    (h : expand g t rng = some (t', i, leaf, rng')) :
    ∃ a, a ∈ g.actions t.state ∧ a ∉ t.children_actions ∧
      t' = t.add_child (g.result t.state a) a ∧
      t'.state = t.state ∧
      t'.children_actions = t.children_actions ++ [a] ∧
      t'.children.length = t.children.length + 1 := by
  unfold expand at h
  cases hr : randomChoice (rngDraw rng).1
      ((g.actions t.state).filter (fun a => a ∉ t.children_actions)) with
  | none => rw [hr] at h; exact Option.noConfusion h
  | some a =>
    rw [hr] at h
    have hmem := randomChoice_mem _ _ _ hr
    rw [List.mem_filter] at hmem
    obtain ⟨hact, hnot⟩ := hmem
    have hnotin : a ∉ t.children_actions := by simpa using hnot
    have ht' : t' = t.add_child (g.result t.state a) a := by
      have h4 := Option.some.inj h
      exact (congrArg Prod.fst h4).symm
    obtain ⟨hs, hca, hcs, _, _⟩ := UTCNode.add_child_fields t (g.result t.state a) a
    exact ⟨a, hact, hnotin, ht', ht' ▸ hs, ht' ▸ hca,
      ht' ▸ (by rw [hcs, List.length_append, List.length_singleton])⟩

/-- A successful `tree_policy` call leaves the root's state unchanged and
either keeps its child lists (when it descended or stopped at a terminal
root) or appends exactly one new legal child action (when it expanded the
root). -/
theorem tree_policy_root (g : GameOps σ α β) [DecidableEq α] (fuel : Nat)
    (t : UTCNode σ α) (rng : List Nat) (t' : UTCNode σ α) (p : List Nat)
    (leaf : σ) (rng' : List Nat)
    (h : tree_policy g fuel t rng = some (t', p, leaf, rng')) :
    t'.state = t.state ∧
    ((t'.children_actions = t.children_actions ∧
      t'.children.length = t.children.length) ∨
     ∃ a, a ∈ g.actions t.state ∧
       t'.children_actions = t.children_actions ++ [a] ∧
       t'.children.length = t.children.length + 1) := by
  cases fuel with
  | zero => exact Option.noConfusion h
  | succ fuel =>
    simp only [tree_policy] at h
    by_cases ht : g.terminal_test t.state = true
    · rw [if_pos ht] at h
      have h4 := Option.some.inj h
      have ht' : t' = t := (congrArg Prod.fst h4).symm
      subst ht'
      exact ⟨rfl, Or.inl ⟨rfl, rfl⟩⟩
    · rw [if_neg ht] at h
      by_cases he : t.is_expanded g = true
      · rw [if_pos he] at h
        cases hbi : best_child_idx t with
        | none =>
          simp only [hbi] at h
          exact Option.noConfusion h
        | some i =>
          simp only [hbi] at h
          cases hci : t.children.get? i with
          | none =>
          simp only [hci] at h
          exact Option.noConfusion h
          | some c =>
            simp only [hci] at h
            cases htp : tree_policy g fuel c rng with
            | none =>
          simp only [htp] at h
          exact Option.noConfusion h
            | some res =>
              obtain ⟨c', p2, leaf2, rng2⟩ := res
              simp only [htp] at h
              have h4 := Option.some.inj h
              have ht' : t' = t.setChild i c' := (congrArg Prod.fst h4).symm
              obtain ⟨hs, hca, hcs, _, _⟩ := UTCNode.setChild_fields t i c'
              rw [ht']
              exact ⟨hs, Or.inl ⟨hca, by rw [hcs, List.length_set]⟩⟩
      · rw [if_neg he] at h
        cases hex : expand g t rng with
        | none =>
          simp only [hex] at h
          exact Option.noConfusion h
        | some res =>
          obtain ⟨t2, i2, leaf2, rng2⟩ := res
          simp only [hex] at h
          have h4 := Option.some.inj h
          have ht' : t' = t2 := (congrArg Prod.fst h4).symm
          obtain ⟨a, hact, _, _, hs, hca, hcl⟩ :=
            expand_effect g t rng t2 i2 leaf2 rng2 hex
          rw [ht']
          exact ⟨hs, Or.inr ⟨a, hact, hca, hcl⟩⟩

/-- Backpropagation does not change the root's state, recorded actions or
child count. -/
theorem backprop_root_fields (t : UTCNode σ α) (p : List Nat) (r : ℝ)
    (t' : UTCNode σ α) (rp : ℝ) (h : backprop t p r = some (t', rp)) :
    t'.state = t.state ∧ t'.children_actions = t.children_actions ∧
    t'.children.length = t.children.length := by
  obtain ⟨_, hpre, _⟩ := backprop_spec p t r t' rp h
  obtain ⟨n', hn', _, _, hs, hca, hcl⟩ := hpre [] ⟨p, rfl⟩ t rfl
  have he : t' = n' := Option.some.inj hn'
  rw [he]
  exact ⟨hs, hca, hcl⟩

/-- One MCTS iteration: root state unchanged; child lists unchanged or
extended by one legal action. -/
theorem mcts_iter_root (g : GameOps σ α β) [DecidableEq α] (tp sim : Nat)
    (t : UTCNode σ α) (rng : List Nat) (t' : UTCNode σ α) (rng' : List Nat)
    (h : mcts_iter g tp sim t rng = some (t', rng')) :
    t'.state = t.state ∧
    ((t'.children_actions = t.children_actions ∧
      t'.children.length = t.children.length) ∨
     ∃ a, a ∈ g.actions t.state ∧
       t'.children_actions = t.children_actions ++ [a] ∧
       t'.children.length = t.children.length + 1) := by
  unfold mcts_iter at h
  cases htp : tree_policy g tp t rng with
  | none => rw [htp] at h; exact Option.noConfusion h
  | some res =>
    obtain ⟨t1, path, leaf, rng1⟩ := res
    simp only [htp] at h
    cases hdp : default_policy g sim leaf rng1 with
    | none =>
          simp only [hdp] at h
          exact Option.noConfusion h
    | some res2 =>
      obtain ⟨rw2, rng2⟩ := res2
      simp only [hdp] at h
      cases hbp : backprop t1 path ((rw2 : ℤ) : ℝ) with
      | none =>
          simp only [hbp] at h
          exact Option.noConfusion h
      | some res3 =>
        obtain ⟨t2, rp⟩ := res3
        simp only [hbp] at h
        have h4 := Option.some.inj h
        have ht' : t' = t2 := (congrArg Prod.fst h4).symm
        subst ht'
        obtain ⟨hs1, hd⟩ := tree_policy_root g tp t rng t1 path leaf rng1 htp
        obtain ⟨hs2, hca2, hcl2⟩ := backprop_root_fields t1 path _ t' rp hbp
        refine ⟨by rw [hs2, hs1], ?_⟩
        rcases hd with ⟨hca, hcl⟩ | ⟨a, hact, hca, hcl⟩
        · exact Or.inl ⟨by rw [hca2, hca], by rw [hcl2, hcl]⟩
        · exact Or.inr ⟨a, hact, by rw [hca2, hca], by rw [hcl2, hcl]⟩

/-- The whole MCTS loop: root state constant, recorded actions only grow,
all of them legal, and the children/actions length balance is
preserved. -/
theorem mcts_loop_root (g : GameOps σ α β) [DecidableEq α] (tp sim : Nat) :
    ∀ (n : Nat) (t : UTCNode σ α) (rng : List Nat) (t' : UTCNode σ α)
      (rng' : List Nat), mcts_loop g tp sim n t rng = some (t', rng') →
      t'.state = t.state ∧
      (∀ a ∈ t'.children_actions,
        a ∈ t.children_actions ∨ a ∈ g.actions t.state) ∧
      t.children_actions.length ≤ t'.children_actions.length ∧
      (t.children.length = t.children_actions.length →
        t'.children.length = t'.children_actions.length) := by
  intro n
  induction n with
  | zero =>
    intro t rng t' rng' h
    simp only [mcts_loop] at h
    have h4 := Option.some.inj h
    have ht' : t' = t := (congrArg Prod.fst h4).symm
    subst ht'
    exact ⟨rfl, fun a ha => Or.inl ha, le_refl _, fun h => h⟩
  | succ n ih =>
    intro t rng t' rng' h
    simp only [mcts_loop] at h
    cases hit : mcts_iter g tp sim t rng with
    | none => rw [hit] at h; exact Option.noConfusion h
    | some res =>
      obtain ⟨t1, rng1⟩ := res
      simp only [hit] at h
      obtain ⟨hs1, hd1⟩ := mcts_iter_root g tp sim t rng t1 rng1 hit
      obtain ⟨hs2, hmem2, hlen2, hbal2⟩ := ih t1 rng1 t' rng' h
      refine ⟨by rw [hs2, hs1], ?_, ?_, ?_⟩
      · intro a ha
        rcases hmem2 a ha with hmem | hmem
        · rcases hd1 with ⟨hca, _⟩ | ⟨a', hact', hca, _⟩
          · exact Or.inl (hca ▸ hmem)
          · rw [hca] at hmem
            rcases List.mem_append.mp hmem with hmem | hmem
            · exact Or.inl hmem
            · rw [List.mem_singleton.mp hmem]
              exact Or.inr hact'
        · rw [hs1] at hmem
          exact Or.inr hmem
      · rcases hd1 with ⟨hca, _⟩ | ⟨a', _, hca, _⟩
        · rw [hca] at hlen2; exact hlen2
        · rw [hca, List.length_append, List.length_singleton] at hlen2
          omega
      · intro hbal
        apply hbal2
        rcases hd1 with ⟨hca, hcl⟩ | ⟨a', _, hca, hcl⟩
        · rw [hca, hcl]; exact hbal
        · rw [hca, hcl, List.length_append, List.length_singleton]
          omega

/-- The first iteration from a fresh non-terminal root with at least one
legal action must expand the root, so afterwards the root records at least
one child action. -/
theorem mcts_iter_first (g : GameOps σ α β) [DecidableEq α] (tp sim : Nat)
    (s : σ) (rng : List Nat) (t' : UTCNode σ α) (rng' : List Nat)
    (hterm : g.terminal_test s = false) (hact : g.actions s ≠ [])
    (h : mcts_iter g tp sim (UTCNode.new s) rng = some (t', rng')) :
    t'.children_actions ≠ [] := by
  unfold mcts_iter at h
  cases htp : tree_policy g tp (UTCNode.new s) rng with
  | none => rw [htp] at h; exact Option.noConfusion h
  | some res =>
    obtain ⟨t1, path, leaf, rng1⟩ := res
    simp only [htp] at h
    have hlen0 : (g.actions s).length ≠ 0 := by
      intro h0; exact hact (List.length_eq_zero.mp h0)
    have hbe : ((0 : Nat) == (g.actions s).length) = false :=
      beq_eq_false_iff_ne.mpr (fun h0 => hlen0 h0.symm)
    have h1 : t1.children_actions ≠ [] := by
      cases tp with
      | zero => exact Option.noConfusion htp
      | succ tp' =>
        simp only [tree_policy, UTCNode.new, UTCNode.state_mk, hterm,
          Bool.false_eq_true, if_false, UTCNode.is_expanded,
          UTCNode.children_actions_mk, List.length_nil, hbe] at htp
        cases hex : expand g (UTCNode.mk 1 0 s [] []) rng with
        | none =>
          rw [hex] at htp
          exact Option.noConfusion htp
        | some res2 =>
          obtain ⟨t2, i2, leaf2, rng2⟩ := res2
          simp only [hex] at htp
          have h4 := Option.some.inj htp
          have ht1 : t1 = t2 := (congrArg Prod.fst h4).symm
          obtain ⟨a, _, _, _, _, hca, _⟩ :=
            expand_effect g (UTCNode.mk 1 0 s [] []) rng t2 i2 leaf2 rng2 hex
          rw [ht1, hca]
          simp [UTCNode.children_actions_mk]
    cases hdp : default_policy g sim leaf rng1 with
    | none =>
      simp only [hdp] at h
      exact Option.noConfusion h
    | some res2 =>
      obtain ⟨rw2, rng2⟩ := res2
      simp only [hdp] at h
      cases hbp : backprop t1 path ((rw2 : ℤ) : ℝ) with
      | none =>
        simp only [hbp] at h
        exact Option.noConfusion h
      | some res3 =>
        obtain ⟨t2, rp⟩ := res3
        simp only [hbp] at h
        have h4 := Option.some.inj h
        have ht' : t' = t2 := (congrArg Prod.fst h4).symm
        obtain ⟨_, hca2, _⟩ := backprop_root_fields t1 path _ t2 rp hbp
        rw [ht', hca2]
        exact h1

/-- C1, amended.  For a non-terminal root with at least one legal action,
if at least one MCTS iteration completes before the deadline, the search
returns an action from the root's legal-action list. -/
theorem claim_C1_amended (g : GameOps σ α β) [DecidableEq α]
    (iters tp sim : Nat) (state : σ) (rng : List Nat) (t : UTCNode σ α)
    (rng' : List Nat)
    (hterm : g.terminal_test state = false) (hact : g.actions state ≠ [])
    (hn : 1 ≤ iters)
    (hloop : mcts_loop g tp sim iters (UTCNode.new state) rng = some (t, rng')) :
    ∃ a ∈ g.actions state, MCTS_search g iters tp sim state rng = some a := by
  obtain ⟨n', rfl⟩ : ∃ n', iters = n' + 1 := ⟨iters - 1, by omega⟩
  simp only [mcts_loop] at hloop
  cases hit : mcts_iter g tp sim (UTCNode.new state) rng with
  | none =>
    rw [hit] at hloop
    exact Option.noConfusion hloop
  | some res =>
    obtain ⟨t1, rng1⟩ := res
    simp only [hit] at hloop
    have h1 := mcts_iter_first g tp sim state rng t1 rng1 hterm hact hit
    have h2 := mcts_iter_root g tp sim (UTCNode.new state) rng t1 rng1 hit
    have h3 := mcts_loop_root g tp sim n' t1 rng1 t rng' hloop
    have hst1 : t1.state = state := h2.1
    have hca1 : ∀ a ∈ t1.children_actions, a ∈ g.actions state := by
      intro a ha
      rcases h2.2 with ⟨hca, _⟩ | ⟨a', hact', hca, _⟩
      · rw [hca] at ha
        exact absurd ha (List.not_mem_nil a)
      · rw [hca] at ha
        rcases List.mem_append.mp ha with ha | ha
        · exact absurd ha (List.not_mem_nil a)
        · rw [List.mem_singleton.mp ha]
          exact hact'
    have hca_sub : ∀ a ∈ t.children_actions, a ∈ g.actions state := by
      intro a ha
      rcases h3.2.1 a ha with hmem | hmem
      · exact hca1 a hmem
      · rw [hst1] at hmem
        exact hmem
    have hbal1 : t1.children.length = t1.children_actions.length := by
      rcases h2.2 with ⟨hca, hcl⟩ | ⟨a', _, hca, hcl⟩
      · rw [hca, hcl]; rfl
      · rw [hca, hcl]; rfl
    have hlen : t.children.length = t.children_actions.length := h3.2.2.2 hbal1
    have hne : t.children ≠ [] := by
      have hge : 1 ≤ t1.children_actions.length := by
        cases hc : t1.children_actions with
        | nil => exact absurd hc h1
        | cons x xs => simp [hc]
      have hge2 : 1 ≤ t.children_actions.length := le_trans hge h3.2.2.1
      intro hnil
      rw [hnil] at hlen
      simp only [List.length_nil] at hlen
      omega
    obtain ⟨i, c, a, hbi, hgc, hga, hfc, _, _⟩ := mcts_final_choice_spec t hne hlen
    refine ⟨a, hca_sub a (List.get?_mem hga), ?_⟩
    unfold MCTS_search
    simp only [hterm, Bool.false_eq_true, if_false, mcts_loop, hit, hloop]
    exact hfc

/-- C1, counterexample.  With the deadline already passed (zero completed
iterations) on a non-terminal root, the root has no children, Python's
`max([])` in `best_child` raises, and no action is returned — there is no
random-action fallback at line 81. -/
theorem claim_C1_counterexample :
    cg1.terminal_test 0 = false ∧ cg1.actions 0 ≠ [] ∧
    MCTS_search cg1 0 5 5 0 [] = none :=
  ⟨rfl, by decide, rfl⟩

/-- C1, witness for the amended theorem: one completed iteration on `cg1`
suffices to return the unique legal action `7`. -/
theorem claim_C1_witness :
    (cg1.terminal_test 0 = false ∧ cg1.actions 0 ≠ [] ∧ 1 ≤ 1 ∧
      mcts_loop cg1 5 5 1 (UTCNode.new 0) [] =
        some (UTCNode.mk 2 (0 + -((1 : ℤ) : ℝ)) 0
          [UTCNode.mk 2 (0 + ((1 : ℤ) : ℝ)) 1 [] []] [7], [])) ∧
    ∃ a ∈ cg1.actions 0, MCTS_search cg1 1 5 5 0 [] = some a :=
  ⟨⟨rfl, by decide, le_refl 1, rfl⟩,
   claim_C1_amended cg1 1 5 5 0 []
     (UTCNode.mk 2 (0 + -((1 : ℤ) : ℝ)) 0
       [UTCNode.mk 2 (0 + ((1 : ℤ) : ℝ)) 1 [] []] [7]) []
     rfl (by decide) (le_refl 1) rfl⟩

/-- C4, amended.  A terminal root short-circuits to `random.choice` of its
legal actions without any tree iterations (the result does not depend on
the iteration budget); the outcome is a legal action whenever the terminal
state still has legal actions, and no action at all (`random.choice([])`
raises) when it has none. -/
theorem claim_C4_amended (g : GameOps σ α β) [DecidableEq α]
    (iters tp sim : Nat) (state : σ) (rng : List Nat)
    (hterm : g.terminal_test state = true) :
    MCTS_search g iters tp sim state rng =
      randomChoice (rngDraw rng).1 (g.actions state) ∧
    MCTS_search g iters tp sim state rng = MCTS_search g 0 tp sim state rng ∧
    (g.actions state ≠ [] →
      ∃ a ∈ g.actions state,
        MCTS_search g iters tp sim state rng = some a) := by
  have h1 : ∀ k, MCTS_search g k tp sim state rng =
      randomChoice (rngDraw rng).1 (g.actions state) := by
    intro k
    unfold MCTS_search
    rw [if_pos hterm]
  refine ⟨h1 iters, by rw [h1 iters, h1 0], ?_⟩
  intro hne
  obtain ⟨a, ha, hra⟩ := randomChoice_isSome (rngDraw rng).1 (g.actions state) hne
  exact ⟨a, ha, by rw [h1 iters, hra]⟩

/-- C4, counterexample.  A terminal state whose legal-action list is empty
(the normal way a knight's-isolation game ends for the player to move)
makes `random.choice(state.actions())` raise: no legal action is
returned. -/
theorem claim_C4_counterexample :
    cg1.terminal_test 1 = true ∧ cg1.actions 1 = [] ∧
    MCTS_search cg1 5 5 5 1 [] = none :=
  ⟨rfl, rfl, rfl⟩

/-- C4, witness for the amended theorem: terminal state `2` of `cg1` still
has the legal action `9`, which the search returns without iterating. -/
theorem claim_C4_witness :
    cg1.terminal_test 2 = true ∧
    (MCTS_search cg1 5 5 5 2 [] = randomChoice (rngDraw []).1 (cg1.actions 2) ∧
      MCTS_search cg1 5 5 5 2 [] = MCTS_search cg1 0 5 5 2 [] ∧
      (cg1.actions 2 ≠ [] →
        ∃ a ∈ cg1.actions 2, MCTS_search cg1 5 5 5 2 [] = some a)) :=
  ⟨rfl, claim_C4_amended cg1 5 5 5 2 [] rfl⟩
